import Mathlib

/-!
Verification development for the `orderedmap` Go package (`src/map.go`).

The container combines a doubly linked list of nodes (insertion order) with a
hash index `nodeMap : map[any]*Node` and a stored `length`.  We embed the
state shallowly:

* the node chain reachable from `head` via `next` becomes a Lean list
  `chain : List (GoValue × GoValue)` (head = first element, tail = last
  element, so the `prev`/`next` splicing of the source becomes list surgery);
* the key set of the Go hash index becomes `nodeMap : List GoValue`
  (the index stores non-owning references to chain nodes, so only its key set
  is independent state);
* the stored count becomes `length : Int` (a Go `int`).

Keys and values have Go type `any`; the claims only exercise the scalar
fragment, which we embed as `GoValue` below, with `GoValue.vnil` playing the
role of the `nil` interface value.
-/

/-- Scalar fragment of Go's `any` universe used by the map: `nil`, `string`,
`int`/`int64`, `float64` (embedded as an exact rational), `bool`, and
`json.Number` (a string type).  This is the universe the claims quantify
over. -/
inductive GoValue where
  | vnil : GoValue
  | vstr (s : String) : GoValue
  | vint (n : Int) : GoValue
  | vfloat (q : ℚ) : GoValue
  | vbool (b : Bool) : GoValue
  | vnum (lit : String) : GoValue
  deriving DecidableEq, Repr

/-- State of `OrderedMap` (map.go:23-29): the node chain from `head` to
`tail`, the key set of the `nodeMap` index, and the stored `length`. -/
structure OrderedMap where
  chain : List (GoValue × GoValue)
  nodeMap : List GoValue
  length : Int
  deriving DecidableEq, Repr

/-- `NewOrderedMap` (map.go:38-42): empty chain, empty index, zero count. -/
def NewOrderedMap : OrderedMap := ⟨[], [], 0⟩

/-- In-place `node.Value = value` on the node the index maps `key` to
(map.go:65-68): on the list embedding, replace the value of the first chain
entry carrying that key. -/
def valueUpdate : List (GoValue × GoValue) → GoValue → GoValue →
    List (GoValue × GoValue)
  | [], _, _ => []
  | p :: rest, key, value =>
    if p.1 = key then (key, value) :: rest else p :: valueUpdate rest key value

/-- Internal `set` (map.go:388-415): rejects nil key; existing key gets its
node's `Value` replaced in place; otherwise a fresh node is appended at the
tail (the emptiness test in the source is `om.head == nil`, i.e. the chain
head is absent), the key enters the index and the count increments.
Returns the updated state together with the Go `error` result. -/
def OrderedMap.set (om : OrderedMap) (key value : GoValue) :
    OrderedMap × Option String :=
  if key = GoValue.vnil then (om, some "key cannot be nil")
  else if key ∈ om.nodeMap then
    ({ om with chain := valueUpdate om.chain key value }, none)
  else
    ({ chain := om.chain ++ [(key, value)],
       nodeMap := key :: om.nodeMap,
       length := om.length + 1 }, none)

/-- Public `Set` (map.go:57-87): same algorithm as the internal `set`, under
the exclusive lock; the emptiness test in the source is `om.tail == nil`
(the chain has no last element). -/
def OrderedMap.Set (om : OrderedMap) (key value : GoValue) :
    OrderedMap × Option String :=
  if key = GoValue.vnil then (om, some "key cannot be nil")
  else if key ∈ om.nodeMap then
    ({ om with chain := valueUpdate om.chain key value }, none)
  else
    ({ chain := om.chain ++ [(key, value)],
       nodeMap := key :: om.nodeMap,
       length := om.length + 1 }, none)

/-- Splicing of `Delete` (map.go:112-122): the node holding `key` is cut out
of the chain by redirecting its neighbours' links; on the list embedding this
removes the first entry whose key matches. -/
def spliceOut : List (GoValue × GoValue) → GoValue → List (GoValue × GoValue)
  | [], _ => []
  | p :: rest, key => if p.1 = key then rest else p :: spliceOut rest key

/-- `Delete` (map.go:99-131): nil key is an error; a key absent from the
index is a no-op success; otherwise the node is spliced out of the chain,
the key leaves the index and the count decrements. -/
def OrderedMap.Delete (om : OrderedMap) (key : GoValue) :
    OrderedMap × Option String :=
  if key = GoValue.vnil then (om, some "key cannot be nil")
  else if key ∈ om.nodeMap then
    ({ chain := spliceOut om.chain key,
       nodeMap := om.nodeMap.erase key,
       length := om.length - 1 }, none)
  else (om, none)

/-- `Keys` (map.go:143-154): walk the chain from head via `next`, collecting
keys. -/
def OrderedMap.Keys (om : OrderedMap) : List GoValue :=
  om.chain.map Prod.fst

/-- `Values` (map.go:166-177): walk the chain from head via `next`,
collecting values. -/
def OrderedMap.Values (om : OrderedMap) : List GoValue :=
  om.chain.map Prod.snd

/-- `Len` (map.go:270-274): the stored count. -/
def OrderedMap.Len (om : OrderedMap) : Int := om.length

/-- First-match value lookup along the chain; stands for following the
`nodeMap` index reference to the node and reading its `Value` field. -/
def chainFind : List (GoValue × GoValue) → GoValue → Option GoValue
  | [], _ => none
  | p :: rest, key => if p.1 = key then some p.2 else chainFind rest key

/-- `Get` (map.go:225-237): nil key yields `(nil, false)` without error;
otherwise an index lookup returning the node's value and `true`, or
`(nil, false)` when absent. -/
def OrderedMap.Get (om : OrderedMap) (key : GoValue) : GoValue × Bool :=
  if key = GoValue.vnil then (GoValue.vnil, false)
  else
    match chainFind om.chain key with
    | some v => (v, true)
    | none => (GoValue.vnil, false)

/-- `Has` (map.go:285-295): nil key yields `false`; otherwise an index
membership test. -/
def OrderedMap.Has (om : OrderedMap) (key : GoValue) : Bool :=
  if key = GoValue.vnil then false else decide (key ∈ om.nodeMap)

/-- `Clear` (map.go:209-214): resets the index, head, tail and count.  The
source takes no lock here (see `lockCallsOf`). -/
def OrderedMap.Clear (_om : OrderedMap) : OrderedMap := ⟨[], [], 0⟩

/-- `First` (map.go:426-434): the head node's pair, or nils and `false` when
the chain is empty. -/
def OrderedMap.First (om : OrderedMap) : GoValue × GoValue × Bool :=
  match om.chain.head? with
  | some p => (p.1, p.2, true)
  | none => (GoValue.vnil, GoValue.vnil, false)

/-- `Last` (map.go:445-453): the tail node's pair, or nils and `false` when
the chain is empty. -/
def OrderedMap.Last (om : OrderedMap) : GoValue × GoValue × Bool :=
  match om.chain.getLast? with
  | some p => (p.1, p.2, true)
  | none => (GoValue.vnil, GoValue.vnil, false)

/-- Walk a list of pairs, `Set`ting each into the accumulator container and
discarding the `error` result (the source uses `_ = newMap.Set(...)`). -/
def applySets (om : OrderedMap) : List (GoValue × GoValue) → OrderedMap
  | [] => om
  | p :: rest => applySets (om.Set p.1 p.2).1 rest

/-- `Copy` (map.go:304-315): walk the source chain head to tail and `Set`
each pair into a fresh container. -/
def OrderedMap.Copy (om : OrderedMap) : OrderedMap :=
  applySets NewOrderedMap om.chain

/-- Mutex operations a method performs, in source order.  `rlock`/`runlock`
are `mu.RLock()`/`mu.RUnlock()`, `wlock`/`wunlock` are
`mu.Lock()`/`mu.Unlock()`. -/
inductive LockCall where
  | rlock : LockCall
  | runlock : LockCall
  | wlock : LockCall
  | wunlock : LockCall
  deriving DecidableEq, Repr

/-- The three write methods named by the spec's locking discipline. -/
inductive WriteMethod where
  | setM : WriteMethod
  | deleteM : WriteMethod
  | clearM : WriteMethod
  deriving DecidableEq, Repr

/-- Lock calls each write method performs, transcribed from the source:
`Set` does `om.mu.Lock()` / deferred `Unlock` (map.go:62-63), `Delete`
likewise (map.go:104-105), while the body of `Clear` (map.go:209-214)
contains no lock call at all — its doc comment says "This operation is not
atomic". -/
def lockCallsOf : WriteMethod → List LockCall
  | WriteMethod.setM => [LockCall.wlock, LockCall.wunlock]
  | WriteMethod.deleteM => [LockCall.wlock, LockCall.wunlock]
  | WriteMethod.clearM => []

/-!
JSON codec model.  The package serializes through Go's `encoding/json`
(`json.Marshal` of a `map[string]interface{}`, `json.Unmarshal` /
`json.Decoder` into one).  That library is not part of this repository, so
we model the fragment of its behaviour the container's codec exercises on
the claims' inputs: top-level JSON objects whose member values are scalars
(strings, numbers without exponent, booleans, null), no surrounding
whitespace, no `\u` escapes.  `json.Marshal` of a Go map emits the members
sorted by key, compact (`"k":v` separated by `,`), escaping `"`, `\\`,
control characters and the HTML characters `<`, `>`, `&`; float64 values are
embedded as exact rationals and printed in plain decimal. -/

/-- Numeric value of a list of decimal digit characters, most significant
first. -/
def digitsVal (ds : List Char) : Nat :=
  ds.foldl (fun a c => 10 * a + (c.toNat - 48)) 0

/-- The decimal digit character for `n < 10`. -/
def digitChar : Nat → Char
  | 0 => '0'
  | 1 => '1'
  | 2 => '2'
  | 3 => '3'
  | 4 => '4'
  | 5 => '5'
  | 6 => '6'
  | 7 => '7'
  | 8 => '8'
  | 9 => '9'
  | _ => '*'

/-- Decimal digits of a natural number below the fuel bound, most
significant first (structural on the fuel so the kernel can evaluate it). -/
def natToDigitsAux : Nat → Nat → List Char
  | 0, _ => []
  | fuel + 1, n =>
    if n < 10 then [digitChar n]
    else natToDigitsAux fuel (n / 10) ++ [digitChar (n % 10)]

/-- Decimal digits of a natural number, most significant first. -/
def natToDigits (n : Nat) : List Char := natToDigitsAux (n + 1) n

/-- Decimal rendering of an integer, as `strconv` renders a Go `int64`. -/
def intChars (n : Int) : List Char :=
  if n < 0 then '-' :: natToDigits n.natAbs else natToDigits n.natAbs

/-- Exponent of the prime `p` in `n` below the fuel bound (structural on
the fuel so the kernel can evaluate it). -/
def factorExpAux : Nat → Nat → Nat → Nat
  | 0, _, _ => 0
  | fuel + 1, p, n =>
    if 2 ≤ p ∧ 0 < n ∧ n % p = 0 then factorExpAux fuel p (n / p) + 1 else 0

/-- Exponent of the prime `p` in `n` (`0` when `p < 2` or `n = 0`). -/
def factorExp (p n : Nat) : Nat := factorExpAux (n + 1) p n

/-- The rational `10 ^ e`, built through `mkRat` so it evaluates cheaply. -/
def tenPow (e : Nat) : ℚ := mkRat ((10 : Int) ^ e) 1

/-- Number of decimal fraction digits needed for `q`: the larger of the
exponents of `2` and `5` in its reduced denominator. -/
def ratDecExp (q : ℚ) : Nat := max (factorExp 2 q.den) (factorExp 5 q.den)

/-- A rational is decimal when scaling by `10 ^ ratDecExp` clears its
denominator — exactly the values a decimal numeral can denote, which is all
a Go float64 can hold.  Decidable, so witnesses can evaluate it. -/
def DecimalRat (q : ℚ) : Prop := (q * tenPow (ratDecExp q)).den = 1

instance (q : ℚ) : Decidable (DecimalRat q) := by
  unfold DecimalRat; infer_instance

/-- Decimal numeral of a rational: integers print as such; a proper decimal
prints sign, integer digits, `.`, then `e` fraction digits (zero-padded on
the left when the magnitude is below one).  Value-faithful to Go's shortest
float64 formatting. -/
def ratChars (q : ℚ) : List Char :=
  if q.den = 1 then intChars q.num
  else
    let e := ratDecExp q
    let m := (q * tenPow e).num
    let ds := natToDigits m.natAbs
    let padded := List.replicate (e + 1 - ds.length) '0' ++ ds
    let signPart : List Char := if m < 0 then ['-'] else []
    signPart ++ padded.take (padded.length - e) ++
      '.' :: padded.drop (padded.length - e)

/-- Lower-case hexadecimal digit character. -/
def hexChar (n : Nat) : Char :=
  Char.ofNat (if n < 10 then 48 + n else 87 + n)

/-- A four-hex-digit `\uXXXX` escape sequence for codepoint `n`. -/
def escUni (n : Nat) : List Char :=
  '\\' :: 'u' :: [hexChar (n / 4096 % 16), hexChar (n / 256 % 16),
    hexChar (n / 16 % 16), hexChar (n % 16)]

/-- Escaping of one character in a JSON string, as Go's encoder does it:
quote, backslash, newline/tab/return get two-character escapes, while other
control characters, the HTML-sensitive `<`, `>`, `&`, and U+2028/U+2029 get
`\uXXXX` escapes. -/
def escapeChar (c : Char) : List Char :=
  if c = '"' then '\\' :: ['"']
  else if c = '\\' then '\\' :: ['\\']
  else if c = '\n' then '\\' :: ['n']
  else if c = '\t' then '\\' :: ['t']
  else if c = '\r' then '\\' :: ['r']
  else if c.toNat < 32 ∨ c = '<' ∨ c = '>' ∨ c = '&' ∨
      c.toNat = 8232 ∨ c.toNat = 8233 then escUni c.toNat
  else [c]

/-- A character the encoder passes through unescaped. -/
def cleanChar (c : Char) : Prop :=
  c ≠ '"' ∧ c ≠ '\\' ∧ 32 ≤ c.toNat ∧ c ≠ '<' ∧ c ≠ '>' ∧ c ≠ '&' ∧
    c.toNat ≠ 8232 ∧ c.toNat ≠ 8233

instance (c : Char) : Decidable (cleanChar c) := by
  unfold cleanChar; infer_instance

/-- Escape every character of a string body. -/
def escapeList : List Char → List Char
  | [] => []
  | c :: rest => escapeChar c ++ escapeList rest

/-- A JSON string token: quote, escaped body, quote. -/
def printJString (s : String) : List Char :=
  '"' :: escapeList s.data ++ ['"']

/-- Rendering of a scalar value by the encoder. -/
def printGoValue : GoValue → List Char
  | GoValue.vstr s => printJString s
  | GoValue.vint n => intChars n
  | GoValue.vfloat q => ratChars q
  | GoValue.vbool b => if b then "true".data else "false".data
  | GoValue.vnil => "null".data
  | GoValue.vnum lit => lit.data

/-- `fmt.Sprintf` rendering used when a non-string key is coerced to text
(map.go:340, map.go:570). -/
def goKeyString : GoValue → String
  | GoValue.vstr s => s
  | GoValue.vint n => String.mk (intChars n)
  | GoValue.vfloat q => String.mk (ratChars q)
  | GoValue.vbool b => if b then "true" else "false"
  | GoValue.vnil => "<nil>"
  | GoValue.vnum lit => lit

/-- Write semantics of a Go `map[string]interface{}` assignment: replace the
existing entry for the key, or add one. -/
def mapUpsert : List (String × GoValue) → String → GoValue →
    List (String × GoValue)
  | [], k, v => [(k, v)]
  | p :: rest, k, v =>
    if p.1 = k then (k, v) :: rest else p :: mapUpsert rest k v

/-- Pour a pair list into a Go map, left to right. -/
def insertAllStr (acc : List (String × GoValue)) :
    List (String × GoValue) → List (String × GoValue)
  | [] => acc
  | p :: rest => insertAllStr (mapUpsert acc p.1 p.2) rest

/-- Insert into a key-sorted pair list (Go's encoder sorts map keys). -/
def insertSorted (p : String × GoValue) :
    List (String × GoValue) → List (String × GoValue)
  | [] => [p]
  | q :: rest => if p.1 < q.1 then p :: q :: rest else q :: insertSorted p rest

/-- Sort a pair list by key, as `json.Marshal` orders the members of a Go
map. -/
def sortByKey : List (String × GoValue) → List (String × GoValue)
  | [] => []
  | p :: rest => insertSorted p (sortByKey rest)

/-- One `"key":value` member, compact form. -/
def printMember (p : String × GoValue) : List Char :=
  printJString p.1 ++ ':' :: printGoValue p.2

/-- Comma-separated members, compact form. -/
def printMembers : List (String × GoValue) → List Char
  | [] => []
  | [p] => printMember p
  | p :: q :: rest => printMember p ++ ',' :: printMembers (q :: rest)

/-- A compact JSON object. -/
def printObject (l : List (String × GoValue)) : List Char :=
  '{' :: printMembers l ++ ['}']

/-- Members under `json.MarshalIndent(tmpMap, "", "  ")`: each on its own
line, indented two spaces, with `": "` separators. -/
def printMembersIndent : List (String × GoValue) → List Char
  | [] => []
  | [p] => ' ' :: ' ' :: printJString p.1 ++ ':' :: ' ' :: printGoValue p.2
  | p :: q :: rest =>
    ' ' :: ' ' :: printJString p.1 ++ ':' :: ' ' :: printGoValue p.2 ++
      ',' :: '\n' :: printMembersIndent (q :: rest)

/-- An indented JSON object, as `json.MarshalIndent` emits it. -/
def printObjectIndent (l : List (String × GoValue)) : List Char :=
  match l with
  | [] => ['{', '}']
  | l => '{' :: '\n' :: printMembersIndent l ++ '\n' :: ['}']

/-- A parsed JSON scalar.  Numbers carry both their literal (what
`json.Number` stores) and their exact value (what float64 decoding uses). -/
inductive JVal where
  | jstr (s : String) : JVal
  | jnum (lit : String) (q : ℚ) : JVal
  | jbool (b : Bool) : JVal
  | jnull : JVal
  deriving DecidableEq, Repr

/-- Decoder for one escape character after a backslash (`\u` sequences are
outside the modelled fragment). -/
def escDecode (e : Char) : Option Char :=
  if e = 'n' then some '\n'
  else if e = 't' then some '\t'
  else if e = 'r' then some '\r'
  else if e = 'b' then some (Char.ofNat 8)
  else if e = 'f' then some (Char.ofNat 12)
  else if e = '"' ∨ e = '\\' ∨ e = '/' then some e
  else none

/-- Body of a JSON string after the opening quote: consume until the closing
quote, decoding escapes and rejecting raw control characters.  Fueled; one
unit per input character suffices. -/
def parseStringBodyAux : Nat → List Char → Option (List Char × List Char)
  | 0, _ => none
  | _ + 1, [] => none
  | fuel + 1, c :: rest =>
    if c = '"' then some ([], rest)
    else if c = '\\' then
      match rest with
      | [] => none
      | e :: rest2 =>
        match escDecode e with
        | some c2 => (parseStringBodyAux fuel rest2).map (fun r => (c2 :: r.1, r.2))
        | none => none
    else if c.toNat < 32 then none
    else (parseStringBodyAux fuel rest).map (fun r => (c :: r.1, r.2))

/-- Longest digit run at the front of the input. -/
def takeDigits : List Char → List Char × List Char
  | [] => ([], [])
  | c :: rest =>
    if c.isDigit then
      let r := takeDigits rest
      (c :: r.1, r.2)
    else ([], c :: rest)

/-- Optional leading minus sign. -/
def parseNeg : List Char → Bool × List Char
  | '-' :: rest => (true, rest)
  | s => (false, s)

/-- Optional leading sign as `strconv` accepts it (`+` or `-`). -/
def parseIntSign : List Char → Bool × List Char
  | '-' :: rest => (true, rest)
  | '+' :: rest => (false, rest)
  | s => (false, s)

/-- Literal text of a number from its parts. -/
def numLit (neg : Bool) (ids fds : List Char) : List Char :=
  (if neg then ['-'] else []) ++ ids ++ (if fds = [] then [] else '.' :: fds)

/-- Exact value of a number from its parts:
`±(ids + fds / 10^|fds|)`. -/
def numRat (neg : Bool) (ids fds : List Char) : ℚ :=
  let a := mkRat (digitsVal ids * 10 ^ fds.length + digitsVal fds : Nat)
    (10 ^ fds.length)
  if neg then -a else a

/-- JSON's leading-zero rule: the integer digit run may start with `0` only
when it is exactly `0`. -/
def leadOK (ids : List Char) : Bool :=
  decide (ids.head? ≠ some '0') || decide (ids.length = 1)

/-- A JSON number token (without exponent, the modelled fragment): optional
minus, integer digits, optional fraction.  Returns literal, value, and rest
of input. -/
def parseNumber (s : List Char) : Option ((List Char × ℚ) × List Char) :=
  let sgn := parseNeg s
  let idp := takeDigits sgn.2
  if idp.1 = [] then none
  else if ¬ leadOK idp.1 then none
  else
    match idp.2 with
    | '.' :: s3 =>
      let fdp := takeDigits s3
      if fdp.1 = [] then none
      else some ((numLit sgn.1 idp.1 fdp.1, numRat sgn.1 idp.1 fdp.1), fdp.2)
    | _ => some ((numLit sgn.1 idp.1 [], numRat sgn.1 idp.1 []), idp.2)

/-- Match a fixed literal tail (for `true`, `false`, `null`). -/
def stripLit (lit : List Char) (s : List Char) : Option (List Char) :=
  if lit.isPrefixOf s then some (s.drop lit.length) else none

/-- One scalar JSON value: string, number, `true`, `false` or `null`
(arrays and nested objects are outside the modelled fragment). -/
def parseValue : List Char → Option (JVal × List Char)
  | [] => none
  | c :: rest =>
    if c = '"' then
      (parseStringBodyAux (rest.length + 1) rest).map
        (fun r => (JVal.jstr (String.mk r.1), r.2))
    else if c = 't' then
      (stripLit "rue".data rest).map (fun r => (JVal.jbool true, r))
    else if c = 'f' then
      (stripLit "alse".data rest).map (fun r => (JVal.jbool false, r))
    else if c = 'n' then
      (stripLit "ull".data rest).map (fun r => (JVal.jnull, r))
    else if c = '-' ∨ c.isDigit then
      (parseNumber (c :: rest)).map
        (fun r => (JVal.jnum (String.mk r.1.1) r.1.2, r.2))
    else none

/-- Members of a JSON object after the opening brace, for a non-empty
member list: `"key":value` then `,` and more members, or `}`.  Fueled; one
unit per member suffices. -/
def parseMembersAux : Nat → List Char → Option (List (String × JVal) × List Char)
  | 0, _ => none
  | fuel + 1, s =>
    match s with
    | '"' :: rest =>
      match parseStringBodyAux (rest.length + 1) rest with
      | none => none
      | some (key, s2) =>
        match s2 with
        | ':' :: s3 =>
          match parseValue s3 with
          | none => none
          | some (v, s4) =>
            match s4 with
            | ',' :: s5 =>
              (parseMembersAux fuel s5).map
                (fun r => ((String.mk key, v) :: r.1, r.2))
            | '}' :: s5 => some ([(String.mk key, v)], s5)
            | _ => none
        | _ => none
    | _ => none

/-- A flat JSON object: `{}` or `{` followed by members. -/
def parseObject (s : List Char) : Option (List (String × JVal) × List Char) :=
  match s with
  | '{' :: rest =>
    match rest with
    | '}' :: r2 => some ([], r2)
    | _ => parseMembersAux rest.length rest
  | _ => none

/-- Conversion of a parsed scalar to the Go value `encoding/json` stores in
a `map[string]interface{}`: numbers become float64, or stay `json.Number`
under `Decoder.UseNumber`. -/
def decodeJVal (useNumber : Bool) : JVal → GoValue
  | JVal.jstr s => GoValue.vstr s
  | JVal.jbool b => GoValue.vbool b
  | JVal.jnull => GoValue.vnil
  | JVal.jnum lit q => if useNumber then GoValue.vnum lit else GoValue.vfloat q

/-- Collapse parsed members into a Go map (later duplicates win), decoding
each value. -/
def jmembersToMap (useNumber : Bool) (mems : List (String × JVal)) :
    List (String × GoValue) :=
  insertAllStr [] (mems.map (fun p => (p.1, decodeJVal useNumber p.2)))

/-- `json.Unmarshal(data, &tmpMap)`: the whole input must be one JSON
object; numbers decode to float64. -/
def unmarshalDecode (data : String) : Except String (List (String × GoValue)) :=
  match parseObject data.data with
  | some (mems, []) => Except.ok (jmembersToMap false mems)
  | some (_, _ :: _) => Except.error "invalid character after top-level value"
  | none => Except.error "invalid JSON input"

/-- `json.Decoder.Decode` into the map (map.go:621-627): reads one JSON
object off the front of the stream, ignoring trailing bytes; `UseNumber`
keeps numbers as `json.Number`. -/
def decoderDecode (useNumber : Bool) (data : String) :
    Except String (List (String × GoValue)) :=
  match parseObject data.data with
  | some (mems, _) => Except.ok (jmembersToMap useNumber mems)
  | none => Except.error "invalid JSON input"

/-- Insertion loop of `UnmarshalJSON` (map.go:377-382): internal `set` of
each decoded member under the string key, stopping at the first error. -/
def insertLoopStr (om : OrderedMap) :
    List (String × GoValue) → OrderedMap × Option String
  | [] => (om, none)
  | p :: rest =>
    match om.set (GoValue.vstr p.1) p.2 with
    | (om', none) => insertLoopStr om' rest
    | (om', some e) => (om', some e)

/-- `UnmarshalJSON` (map.go:360-385): decode into a temporary map first —
returning the parse error with the receiver untouched on failure — then
clear the receiver and `set` every member. -/
def OrderedMap.UnmarshalJSON (om : OrderedMap) (data : String) :
    OrderedMap × Option String :=
  match unmarshalDecode data with
  | Except.error e => (om, some e)
  | Except.ok tmp => insertLoopStr (OrderedMap.mk [] [] 0) tmp

/-- Options for `ToJSON`/`FromJSON` (map.go:530-537). -/
structure JSONOptions where
  KeyAsString : Bool
  PreserveType : Bool
  PrettyPrint : Bool
  deriving DecidableEq, Repr

/-- Defaults substituted for a nil options pointer (map.go:554-560,
map.go:613-618). -/
def defaultJSONOptions : JSONOptions := ⟨true, false, false⟩

/-- `strconv.ParseInt(s, 10, 64)` (also `json.Number.Int64`): optional
sign, decimal digits, 64-bit signed range. -/
def int64Of (s : String) : Option Int :=
  let sg := parseIntSign s.data
  if sg.2 = [] ∨ ¬ sg.2.all Char.isDigit then none
  else
    let n : Int := if sg.1 then -(digitsVal sg.2 : Int) else (digitsVal sg.2 : Int)
    if -(2 ^ 63) ≤ n ∧ n ≤ 2 ^ 63 - 1 then some n else none

/-- `strconv.ParseFloat(s, 64)` (also `json.Number.Float64`): optional
sign, digits, optional fraction, whole input (exponents, infinities and
float64 overflow are outside the modelled fragment; the value is exact). -/
def float64Of (s : String) : Option ℚ :=
  let sg := parseIntSign s.data
  let idp := takeDigits sg.2
  if idp.1 = [] then none
  else
    match idp.2 with
    | [] => some (numRat sg.1 idp.1 [])
    | '.' :: s3 =>
      let fdp := takeDigits s3
      if fdp.1 = [] ∨ fdp.2 ≠ [] then none
      else some (numRat sg.1 idp.1 fdp.1)
    | _ => none

/-- PreserveType pass of `ToJSON` (map.go:578-587): a string value that
parses as an integer becomes one, else as a float becomes one, else stays a
string. -/
def preserveString : GoValue → GoValue
  | GoValue.vstr s =>
    match int64Of s with
    | some i => GoValue.vint i
    | none =>
      match float64Of s with
      | some q => GoValue.vfloat q
      | none => GoValue.vstr s
  | v => v

/-- Loop of `ToJSON` building `tmpMap` (map.go:565-591): keys coerced to
text, or required to be strings when `KeyAsString` is off (error on the
first offender); values optionally run through the PreserveType pass. -/
def buildTmp (o : JSONOptions) : List (GoValue × GoValue) →
    List (String × GoValue) → Except String (List (String × GoValue))
  | [], acc => Except.ok acc
  | p :: rest, acc =>
    match (if o.KeyAsString then some (goKeyString p.1)
           else match p.1 with
                | GoValue.vstr s => some s
                | _ => none) with
    | none => Except.error "non-string key cannot be converted to JSON"
    | some k =>
      buildTmp o rest
        (mapUpsert acc k (if o.PreserveType then preserveString p.2 else p.2))

/-- `ToJSON` (map.go:553-597): build the temporary map from the chain, then
`json.Marshal` (sorted keys, compact) or `json.MarshalIndent` it. -/
def OrderedMap.ToJSON (om : OrderedMap) (opts : Option JSONOptions) :
    Except String String :=
  let o := opts.getD defaultJSONOptions
  match buildTmp o om.chain [] with
  | Except.error e => Except.error e
  | Except.ok tmp =>
    Except.ok (String.mk
      (if o.PrettyPrint then printObjectIndent (sortByKey tmp)
       else printObject (sortByKey tmp)))

/-- Key recovery of `FromJSON` when `KeyAsString` is off (map.go:641-648):
integer parse first, then float, else the string key stands. -/
def keyRecover (k : String) : GoValue :=
  match int64Of k with
  | some i => GoValue.vint i
  | none =>
    match float64Of k with
    | some q => GoValue.vfloat q
    | none => GoValue.vstr k

/-- Number coercion of `FromJSON` under `PreserveType` (map.go:650-656): a
`json.Number` value is replaced by its float64 form whenever that
conversion succeeds. -/
def numCoerce : GoValue → GoValue
  | GoValue.vnum lit =>
    match float64Of lit with
    | some q => GoValue.vfloat q
    | none => GoValue.vnum lit
  | v => v

/-- Insertion loop of `FromJSON` (map.go:639-661). -/
def fromLoop (o : JSONOptions) (om : OrderedMap) :
    List (String × GoValue) → OrderedMap × Option String
  | [] => (om, none)
  | p :: rest =>
    let key := if o.KeyAsString then GoValue.vstr p.1 else keyRecover p.1
    let v := if o.PreserveType then numCoerce p.2 else p.2
    match om.set key v with
    | (om', none) => fromLoop o om' rest
    | (om', some e) => (om', some e)

/-- `FromJSON` (map.go:612-664): decode into a temporary map (with
`UseNumber` under `PreserveType`) — returning the parse error with the
receiver untouched on failure — then clear the receiver and run the
insertion loop. -/
def OrderedMap.FromJSON (om : OrderedMap) (data : String)
    (opts : Option JSONOptions) : OrderedMap × Option String :=
  let o := opts.getD defaultJSONOptions
  match decoderDecode o.PreserveType data with
  | Except.error e => (om, some e)
  | Except.ok tmp => fromLoop o (OrderedMap.mk [] [] 0) tmp

/-- The mutating operations the invariant claims range over. -/
inductive MapOp where
  | setOp (k v : GoValue) : MapOp
  | delOp (k : GoValue) : MapOp
  | clearOp : MapOp
  | unmarshalOp (data : String) : MapOp
  | fromJSONOp (data : String) (opts : Option JSONOptions) : MapOp

/-- Execute one operation, keeping the mutated state and dropping the error
result (as a caller sequencing mutations does). -/
def stepOp (om : OrderedMap) : MapOp → OrderedMap
  | MapOp.setOp k v => (om.Set k v).1
  | MapOp.delOp k => (om.Delete k).1
  | MapOp.clearOp => om.Clear
  | MapOp.unmarshalOp data => (om.UnmarshalJSON data).1
  | MapOp.fromJSONOp data opts => (om.FromJSON data opts).1

/-- Run a sequence of operations from a fresh container. -/
def runOps (ops : List MapOp) : OrderedMap :=
  ops.foldl stepOp NewOrderedMap

/-!
Structural invariant of the container (spec §3) and its preservation by
every mutating operation.
-/

/-- The container invariant: the index key set is the chain's key set, chain
keys are distinct, no nil key is stored, and the stored count is the chain
length. -/
def WF (om : OrderedMap) : Prop :=
  List.Perm om.nodeMap (om.chain.map Prod.fst) ∧
  (om.chain.map Prod.fst).Nodup ∧
  GoValue.vnil ∉ om.chain.map Prod.fst ∧
  om.length = (om.chain.length : Int)

instance (om : OrderedMap) : Decidable (WF om) := by
  unfold WF; infer_instance

/-- Order of first occurrence of the keys not yet in `seen`. -/
def firstOccurAux (seen : List GoValue) : List GoValue → List GoValue
  | [] => []
  | k :: ks =>
    if k ∈ seen then firstOccurAux seen ks
    else k :: firstOccurAux (k :: seen) ks

/-- Each key of the list once, in order of first occurrence. -/
def firstOccur (ks : List GoValue) : List GoValue := firstOccurAux [] ks

/-- Value of the last pair carrying key `k`, if any. -/
def lastVal (k : GoValue) : List (GoValue × GoValue) → Option GoValue
  | [] => none
  | p :: rest =>
    match lastVal k rest with
    | some v => some v
    | none => if p.1 = k then some p.2 else none

/-- All characters of a string are encoder-clean. -/
def cleanString (s : String) : Prop := ∀ c ∈ s.data, cleanChar c

instance (s : String) : Decidable (cleanString s) := by
  unfold cleanString; exact List.decidableBAll _ s.data

/-- The scalar values the round-trip claim quantifies over, restricted to
the modelled codec fragment: clean text, 53-bit-exact integers (a float64
holds larger integers only approximately), decimal floats, booleans and
null. -/
def scalarClean : GoValue → Prop
  | GoValue.vstr s => cleanString s
  | GoValue.vint n => n.natAbs ≤ 2 ^ 53
  | GoValue.vfloat q => DecimalRat q
  | GoValue.vbool _ => True
  | GoValue.vnil => True
  | GoValue.vnum _ => False

instance (v : GoValue) : Decidable (scalarClean v) := by
  cases v <;> simp only [scalarClean] <;> infer_instance

/-- Parsed form of a printed scalar. -/
def jvalOf : GoValue → JVal
  | GoValue.vstr s => JVal.jstr s
  | GoValue.vint n => JVal.jnum (String.mk (intChars n)) (n : ℚ)
  | GoValue.vfloat q => JVal.jnum (String.mk (ratChars q)) q
  | GoValue.vbool b => JVal.jbool b
  | GoValue.vnil => JVal.jnull
  | GoValue.vnum lit => JVal.jnum lit 0

/-- What default decoding makes of a stored scalar after a round trip:
numbers come back as float64, everything else survives. -/
def floatized : GoValue → GoValue
  | GoValue.vint n => GoValue.vfloat (n : ℚ)
  | v => v

/-- First-match lookup in a string-keyed pair list. -/
def strFind : List (String × GoValue) → String → Option GoValue
  | [], _ => none
  | p :: rest, k => if p.1 = k then some p.2 else strFind rest k

/-- Build a container by `Set`ting string-keyed pairs in order. -/
def buildFromStr (l : List (String × GoValue)) : OrderedMap :=
  applySets NewOrderedMap (l.map (fun p => (GoValue.vstr p.1, p.2)))

/-- Sample Set sequence for the order claim: key "a" is set twice around a
set of "b". -/
def c1pairs : List (GoValue × GoValue) :=
  [(GoValue.vstr "a", GoValue.vint 1), (GoValue.vstr "b", GoValue.vint 2),
   (GoValue.vstr "a", GoValue.vint 3)]

/-- Sample well-formed two-entry container. -/
def c1sample : OrderedMap :=
  ⟨[(GoValue.vstr "a", GoValue.vint 1), (GoValue.vstr "b", GoValue.vint 2)],
   [GoValue.vstr "b", GoValue.vstr "a"], 2⟩

/-- Sample well-formed three-entry container (for deleting a middle key). -/
def c3sample : OrderedMap :=
  ⟨[(GoValue.vstr "a", GoValue.vint 1), (GoValue.vstr "b", GoValue.vint 2),
    (GoValue.vstr "c", GoValue.vint 3)],
   [GoValue.vstr "c", GoValue.vstr "b", GoValue.vstr "a"], 3⟩

/-- Sample well-formed container with mixed scalar values. -/
def c5sample : OrderedMap :=
  ⟨[(GoValue.vstr "x", GoValue.vint 7), (GoValue.vstr "y", GoValue.vbool true),
    (GoValue.vstr "z", GoValue.vnil)],
   [GoValue.vstr "z", GoValue.vstr "y", GoValue.vstr "x"], 3⟩

/-- Sample well-formed one-entry container (for the parse-error claim). -/
def c10sample : OrderedMap :=
  ⟨[(GoValue.vstr "a", GoValue.vint 1)], [GoValue.vstr "a"], 1⟩

/-- Sample flat scalar association for the round-trip claim. -/
def c6list : List (String × GoValue) :=
  [("b", GoValue.vint 2), ("a", GoValue.vstr "x"),
   ("c", GoValue.vfloat (mkRat 3 2)), ("d", GoValue.vbool true),
   ("e", GoValue.vnil)]

theorem wf_new : WF NewOrderedMap := by
  refine ⟨List.Perm.refl _, ?_, ?_, rfl⟩ <;> simp [NewOrderedMap]

theorem Set_eq_set (om : OrderedMap) (k v : GoValue) :
    om.Set k v = om.set k v := rfl

theorem valueUpdate_map_fst (l : List (GoValue × GoValue)) (k v : GoValue) :
    (valueUpdate l k v).map Prod.fst = l.map Prod.fst := by
  induction l with
  | nil => rfl
  | cons p rest ih =>
    by_cases h : p.1 = k <;> simp [valueUpdate, h, ih]

theorem chainFind_valueUpdate_self (l : List (GoValue × GoValue))
    (k v : GoValue) (h : k ∈ l.map Prod.fst) :
    chainFind (valueUpdate l k v) k = some v := by
  induction l with
  | nil => simp at h
  | cons p rest ih =>
    by_cases hp : p.1 = k
    · simp [valueUpdate, hp, chainFind]
    · rw [List.map_cons, List.mem_cons] at h
      rcases h with h | h

      · exact absurd h.symm hp
      · simp [valueUpdate, hp, chainFind, ih h]

theorem chainFind_valueUpdate_ne (l : List (GoValue × GoValue))
    (k v k' : GoValue) (h : k' ≠ k) :
    chainFind (valueUpdate l k v) k' = chainFind l k' := by
  induction l with
  | nil => rfl
  | cons p rest ih =>
    by_cases hp : p.1 = k
    · subst hp
      simp [valueUpdate, chainFind, h, Ne.symm h]
    · simp [valueUpdate, hp, chainFind]
      by_cases hq : p.1 = k' <;> simp [hq, ih]

theorem spliceOut_map_fst (l : List (GoValue × GoValue)) (k : GoValue) :
    (spliceOut l k).map Prod.fst = (l.map Prod.fst).erase k := by
  induction l with
  | nil => rfl
  | cons p rest ih =>
    by_cases h : p.1 = k
    · simp [spliceOut, h, List.erase_cons_head]
    · simp [spliceOut, h, List.erase_cons_tail, ih,
        (by simpa using h : ¬(p.1 == k))]

theorem spliceOut_length (l : List (GoValue × GoValue)) (k : GoValue)
    (h : k ∈ l.map Prod.fst) : (spliceOut l k).length + 1 = l.length := by
  induction l with
  | nil => simp at h
  | cons p rest ih =>
    by_cases hp : p.1 = k
    · simp [spliceOut, hp]
    · rw [List.map_cons, List.mem_cons] at h
      rcases h with h | h
      · exact absurd h.symm hp
      · simp [spliceOut, hp, ih h]

theorem wf_set (om : OrderedMap) (k v : GoValue) (h : WF om) :
    WF (om.set k v).1 := by
  obtain ⟨hperm, hdup, hnil, hlen⟩ := h
  by_cases hk : k = GoValue.vnil
  · simp [OrderedMap.set, hk]
    exact ⟨hperm, hdup, hnil, hlen⟩
  · by_cases hmem : k ∈ om.nodeMap
    · simp only [OrderedMap.set, if_neg hk, if_pos hmem]
      refine ⟨?_, ?_, ?_, ?_⟩ <;>
        simp [valueUpdate_map_fst, hperm, hdup, hnil, hlen]
      have : (valueUpdate om.chain k v).length = om.chain.length := by
        have := congrArg List.length (valueUpdate_map_fst om.chain k v)
        simpa using this
      simp [this, hlen]
    · simp only [OrderedMap.set, if_neg hk, if_neg hmem]
      have hknotin : k ∉ om.chain.map Prod.fst := fun hc =>
        hmem (hperm.mem_iff.mpr hc)
      refine ⟨?_, ?_, ?_, ?_⟩
      · simpa using
          ((hperm.cons k).trans (List.perm_append_singleton k _).symm)
      · have : (om.chain.map Prod.fst ++ [k]).Nodup := by
          rw [List.nodup_append]
          refine ⟨hdup, List.nodup_singleton k, ?_⟩
          intro a ha hb
          rw [List.mem_singleton] at hb
          subst hb
          exact hknotin ha
        simpa using this
      · show GoValue.vnil ∉ (om.chain ++ [(k, v)]).map Prod.fst
        rw [List.map_append]
        intro hc
        rcases List.mem_append.mp hc with h1 | h1
        · exact hnil h1
        · simp only [List.map_cons, List.map_nil, List.mem_singleton] at h1
          exact hk h1.symm
      · simp only [List.length_append, List.length_singleton]
        rw [hlen]
        push_cast
        ring

theorem wf_Set (om : OrderedMap) (k v : GoValue) (h : WF om) :
    WF (om.Set k v).1 := wf_set om k v h

theorem wf_delete (om : OrderedMap) (k : GoValue) (h : WF om) :
    WF (om.Delete k).1 := by
  obtain ⟨hperm, hdup, hnil, hlen⟩ := h
  by_cases hk : k = GoValue.vnil
  · simp [OrderedMap.Delete, hk]
    exact ⟨hperm, hdup, hnil, hlen⟩
  · by_cases hmem : k ∈ om.nodeMap
    · simp only [OrderedMap.Delete, if_neg hk, if_pos hmem]
      have hkchain : k ∈ om.chain.map Prod.fst := hperm.mem_iff.mp hmem
      refine ⟨?_, ?_, ?_, ?_⟩
      · rw [spliceOut_map_fst]
        exact hperm.erase k
      · rw [spliceOut_map_fst]
        exact hdup.erase k
      · rw [spliceOut_map_fst]
        exact fun hc => hnil (List.mem_of_mem_erase hc)
      · have := spliceOut_length om.chain k hkchain
        simp [hlen]
        omega
    · simp only [OrderedMap.Delete, if_neg hk, if_neg hmem]
      exact ⟨hperm, hdup, hnil, hlen⟩

theorem wf_clear (om : OrderedMap) : WF om.Clear := by
  refine ⟨List.Perm.refl _, ?_, ?_, rfl⟩ <;> simp [OrderedMap.Clear]

theorem set_err_none (om : OrderedMap) (k v : GoValue)
    (h : k ≠ GoValue.vnil) : (om.set k v).2 = none := by
  by_cases hmem : k ∈ om.nodeMap <;> simp [OrderedMap.set, h, hmem]

theorem wf_insertLoopStr (l : List (String × GoValue)) :
    ∀ om : OrderedMap, WF om → WF (insertLoopStr om l).1 := by
  induction l with
  | nil => intro om h; simpa [insertLoopStr]
  | cons p rest ih =>
    intro om h
    have hw := wf_set om (GoValue.vstr p.1) p.2 h
    have he := set_err_none om (GoValue.vstr p.1) p.2 (by simp)
    simp only [insertLoopStr]
    rcases hs : om.set (GoValue.vstr p.1) p.2 with ⟨om', err⟩
    rw [hs] at hw he
    simp at hw he
    subst he
    exact ih om' hw

theorem keyRecover_ne_nil (k : String) : keyRecover k ≠ GoValue.vnil := by
  unfold keyRecover
  rcases int64Of k with _ | i
  · rcases float64Of k with _ | q <;> simp
  · simp

theorem fromLoop_key_ne_nil (o : JSONOptions) (k : String) :
    (if o.KeyAsString then GoValue.vstr k else keyRecover k) ≠
      GoValue.vnil := by
  by_cases h : o.KeyAsString
  · simp [h]
  · simpa [h] using keyRecover_ne_nil k

theorem wf_fromLoop (o : JSONOptions) (l : List (String × GoValue)) :
    ∀ om : OrderedMap, WF om → WF (fromLoop o om l).1 := by
  induction l with
  | nil => intro om h; simpa [fromLoop]
  | cons p rest ih =>
    intro om h
    have hkey := fromLoop_key_ne_nil o p.1
    have hw := wf_set om
      (if o.KeyAsString then GoValue.vstr p.1 else keyRecover p.1)
      (if o.PreserveType then numCoerce p.2 else p.2) h
    have he := set_err_none om
      (if o.KeyAsString then GoValue.vstr p.1 else keyRecover p.1)
      (if o.PreserveType then numCoerce p.2 else p.2) hkey
    simp only [fromLoop]
    rcases hs : om.set
      (if o.KeyAsString then GoValue.vstr p.1 else keyRecover p.1)
      (if o.PreserveType then numCoerce p.2 else p.2) with ⟨om', err⟩
    rw [hs] at hw he
    simp at hw he
    subst he
    exact ih om' hw

theorem wf_unmarshal (om : OrderedMap) (data : String) (h : WF om) :
    WF (om.UnmarshalJSON data).1 := by
  cases hd : unmarshalDecode data with
  | error e =>
    simpa [OrderedMap.UnmarshalJSON, hd] using h
  | ok tmp =>
    simpa [OrderedMap.UnmarshalJSON, hd] using
      wf_insertLoopStr tmp (OrderedMap.mk [] [] 0) wf_new

theorem wf_fromJSON (om : OrderedMap) (data : String)
    (opts : Option JSONOptions) (h : WF om) : WF (om.FromJSON data opts).1 := by
  cases hd : decoderDecode (opts.getD defaultJSONOptions).PreserveType data with
  | error e =>
    simpa [OrderedMap.FromJSON, hd] using h
  | ok tmp =>
    simpa [OrderedMap.FromJSON, hd] using
      wf_fromLoop (opts.getD defaultJSONOptions) tmp
        (OrderedMap.mk [] [] 0) wf_new

theorem wf_stepOp (om : OrderedMap) (op : MapOp) (h : WF om) :
    WF (stepOp om op) := by
  cases op with
  | setOp k v => exact wf_Set om k v h
  | delOp k => exact wf_delete om k h
  | clearOp => exact wf_clear om
  | unmarshalOp data => exact wf_unmarshal om data h
  | fromJSONOp data opts => exact wf_fromJSON om data opts h

theorem wf_foldl (ops : List MapOp) :
    ∀ om : OrderedMap, WF om → WF (ops.foldl stepOp om) := by
  induction ops with
  | nil => intro om h; simpa
  | cons op rest ih =>
    intro om h
    exact ih (stepOp om op) (wf_stepOp om op h)

theorem wf_runOps (ops : List MapOp) : WF (runOps ops) :=
  wf_foldl ops NewOrderedMap wf_new

/-- C2: after every sequence of Set / Delete / Clear / UnmarshalJSON /
FromJSON operations, the stored count returned by `Len()` equals the number
of entries reached by walking the chain from the head (the length of
`Keys()`), the index has exactly that many keys, and the index key set is
exactly the chain's key set. -/
theorem claim_c2_invariant (ops : List MapOp) :
    (runOps ops).Len = ((runOps ops).Keys.length : Int) ∧
    (runOps ops).nodeMap.length = (runOps ops).Keys.length ∧
    ∀ k, k ∈ (runOps ops).nodeMap ↔ k ∈ (runOps ops).Keys := by
  obtain ⟨hperm, _, _, hlen⟩ := wf_runOps ops
  refine ⟨?_, ?_, ?_⟩
  · simpa [OrderedMap.Len, OrderedMap.Keys] using hlen
  · simpa [OrderedMap.Keys] using hperm.length_eq
  · intro k
    simpa [OrderedMap.Keys] using hperm.mem_iff

/-- C4: a nil key makes `Set` and `Delete` return the "key cannot be nil"
error with the container untouched, while `Get` answers `(nil, false)` and
`Has` answers `false` without error. -/
theorem claim_c4_nil_key (om : OrderedMap) (v : GoValue) :
    om.Set GoValue.vnil v = (om, some "key cannot be nil") ∧
    om.Delete GoValue.vnil = (om, some "key cannot be nil") ∧
    om.Get GoValue.vnil = (GoValue.vnil, false) ∧
    om.Has GoValue.vnil = false := by
  refine ⟨?_, ?_, ?_, ?_⟩ <;>
    simp [OrderedMap.Set, OrderedMap.Delete, OrderedMap.Get, OrderedMap.Has]

/-- C9 is refuted on the code: the body of `Clear` (map.go:209-214)
performs no lock operation at all, so `Clear` does not acquire the
exclusive writer lock that `Set` and `Delete` acquire. -/
theorem claim_c9_counterexample :
    lockCallsOf WriteMethod.clearM = [] ∧
    LockCall.wlock ∉ lockCallsOf WriteMethod.clearM ∧
    LockCall.wlock ∈ lockCallsOf WriteMethod.setM := by
  refine ⟨rfl, by decide, by decide⟩

/-- C9 (amended): `Set` and `Delete` acquire and release the exclusive
writer lock for the duration of their mutation, while `Clear` resets the
index, head, tail and count without acquiring any lock (its own doc comment
declares it not atomic). -/
theorem claim_c9_theorem :
    lockCallsOf WriteMethod.setM = [LockCall.wlock, LockCall.wunlock] ∧
    lockCallsOf WriteMethod.deleteM = [LockCall.wlock, LockCall.wunlock] ∧
    lockCallsOf WriteMethod.clearM = [] :=
  ⟨rfl, rfl, rfl⟩

theorem filter_ne_of_not_mem (l : List (GoValue × GoValue)) (k : GoValue)
    (h : k ∉ l.map Prod.fst) :
    l.filter (fun p => decide (p.1 ≠ k)) = l := by
  rw [List.filter_eq_self]
  intro p hp
  have : p.1 ≠ k := by
    intro hq
    exact h (List.mem_map.mpr ⟨p, hp, hq⟩)
  simpa using this

theorem spliceOut_eq_filter (l : List (GoValue × GoValue)) (k : GoValue)
    (hd : (l.map Prod.fst).Nodup) :
    spliceOut l k = l.filter (fun p => decide (p.1 ≠ k)) := by
  induction l with
  | nil => rfl
  | cons p rest ih =>
    rw [List.map_cons, List.nodup_cons] at hd
    by_cases hp : p.1 = k
    · have hnot : k ∉ rest.map Prod.fst := hp ▸ hd.1
      simp only [spliceOut, if_pos hp, List.filter_cons]
      rw [if_neg (by simp [hp])]
      exact (filter_ne_of_not_mem rest k hnot).symm
    · simp only [spliceOut, if_neg hp, List.filter_cons]
      rw [if_pos (by simpa using hp)]
      rw [ih hd.2]

theorem map_fst_filter_ne (l : List (GoValue × GoValue)) (k : GoValue) :
    (l.filter (fun p => decide (p.1 ≠ k))).map Prod.fst =
      (l.map Prod.fst).filter (fun x => decide (x ≠ k)) := by
  induction l with
  | nil => rfl
  | cons p rest ih =>
    rw [List.filter_cons, List.map_cons, List.filter_cons]
    by_cases hp : p.1 = k
    · rw [if_neg (by simp [hp]), if_neg (by simp [hp])]
      exact ih
    · rw [if_pos (by simpa using hp), if_pos (by simpa using hp)]
      rw [List.map_cons, ih]

/-- C3: for a non-nil key, `Delete` always succeeds; deleting an absent key
leaves the container untouched; deleting a present key — be it at the head,
the tail, or in the middle — removes exactly that entry from the chain,
keeping every remaining entry in its relative order (hence the head/tail
endpoints are the first/last of the remainder), removes the key from
`Keys()`, and makes `Has` answer false. -/
theorem claim_c3_delete (om : OrderedMap) (k : GoValue) (hwf : WF om)
    (hk : k ≠ GoValue.vnil) :
    (om.Delete k).2 = none ∧
    (om.Has k = false → (om.Delete k).1 = om) ∧
    (om.Has k = true →
      (om.Delete k).1.chain = om.chain.filter (fun p => decide (p.1 ≠ k)) ∧
      (om.Delete k).1.Keys = om.Keys.filter (fun x => decide (x ≠ k)) ∧
      (om.Delete k).1.Has k = false) := by
  obtain ⟨hperm, hdup, hnil, hlen⟩ := hwf
  have hhas : om.Has k = decide (k ∈ om.nodeMap) := by
    simp [OrderedMap.Has, hk]
  by_cases hmem : k ∈ om.nodeMap
  · refine ⟨?_, ?_, ?_⟩
    · simp [OrderedMap.Delete, hk, hmem]
    · intro hfalse
      rw [hhas] at hfalse
      simp [hmem] at hfalse
    · intro _
      have hchain : (om.Delete k).1.chain =
          om.chain.filter (fun p => decide (p.1 ≠ k)) := by
        simp [OrderedMap.Delete, hk, hmem, spliceOut_eq_filter om.chain k hdup]
      refine ⟨hchain, ?_, ?_⟩
      · rw [OrderedMap.Keys, hchain, map_fst_filter_ne]
        rfl
      · have hnodupNode : om.nodeMap.Nodup := hperm.nodup_iff.mpr hdup
        simp [OrderedMap.Delete, hk, hmem, OrderedMap.Has]
        exact hnodupNode.not_mem_erase
  · refine ⟨?_, ?_, ?_⟩
    · simp [OrderedMap.Delete, hk, hmem]
    · intro _
      simp [OrderedMap.Delete, hk, hmem]
    · intro htrue
      rw [hhas] at htrue
      simp [hmem] at htrue

theorem claim_c3_witness :
    (c3sample.Delete (GoValue.vstr "b")).2 = none ∧
    (c3sample.Delete (GoValue.vstr "b")).1.chain =
      c3sample.chain.filter
        (fun p => decide (p.1 ≠ GoValue.vstr "b")) ∧
    (c3sample.Delete (GoValue.vstr "b")).1.Has (GoValue.vstr "b") = false := by
  have h := claim_c3_delete c3sample (GoValue.vstr "b") (by decide) (by decide)
  have h3 := h.2.2 (by decide)
  exact ⟨h.1, h3.1, h3.2.2⟩

theorem applySets_fresh (l : List (GoValue × GoValue)) :
    ∀ om : OrderedMap, (∀ p ∈ l, p.1 ≠ GoValue.vnil) →
    (l.map Prod.fst).Nodup → (∀ p ∈ l, p.1 ∉ om.nodeMap) →
    (applySets om l).chain = om.chain ++ l ∧
    (∀ x, x ∈ (applySets om l).nodeMap ↔
      x ∈ l.map Prod.fst ∨ x ∈ om.nodeMap) := by
  induction l with
  | nil =>
    intro om _ _ _
    exact ⟨by simp [applySets], fun x => by simp [applySets]⟩
  | cons p rest ih =>
    intro om hnil hdup hfresh
    rw [List.map_cons, List.nodup_cons] at hdup
    have hpnil := hnil p (by simp)
    have hpfresh := hfresh p (by simp)
    have hstep : (om.Set p.1 p.2).1 =
        ⟨om.chain ++ [(p.1, p.2)], p.1 :: om.nodeMap, om.length + 1⟩ := by
      simp [OrderedMap.Set, hpnil, hpfresh]
    have ihh := ih ⟨om.chain ++ [(p.1, p.2)], p.1 :: om.nodeMap, om.length + 1⟩
      (fun q hq => hnil q (by simp [hq]))
      hdup.2
      (by
        intro q hq
        rw [List.mem_cons]
        push_neg
        constructor
        · intro hqp
          exact hdup.1 (hqp ▸ List.mem_map.mpr ⟨q, hq, rfl⟩)
        · exact hfresh q (by simp [hq]))
    refine ⟨?_, ?_⟩
    · show (applySets (om.Set p.1 p.2).1 rest).chain = _
      rw [hstep, ihh.1]
      simp
    · intro x
      show x ∈ (applySets (om.Set p.1 p.2).1 rest).nodeMap ↔ _
      rw [hstep]
      rw [ihh.2 x]
      simp [List.mem_cons]
      tauto

/-- C5: `Copy` rebuilds the chain entry by entry through `Set` into a fresh
container, so the copy's chain — hence `Keys()` and `Values()` — equals the
original's, in the same order.  (The copy shares no node with the source:
in this functional embedding mutation of one value cannot affect another,
which is exactly what `Copy`'s re-insertion into a fresh container
guarantees in the source.) -/
theorem claim_c5_copy (om : OrderedMap) (hwf : WF om) :
    om.Copy.chain = om.chain ∧
    om.Copy.Keys = om.Keys ∧ om.Copy.Values = om.Values := by
  obtain ⟨hperm, hdup, hnil, hlen⟩ := hwf
  have h := applySets_fresh om.chain NewOrderedMap
    (by
      intro p hp hpn
      exact hnil (List.mem_map.mpr ⟨p, hp, hpn⟩))
    hdup
    (by intro p _; simp [NewOrderedMap])
  have hchain : om.Copy.chain = om.chain := by
    rw [OrderedMap.Copy, h.1]
    simp [NewOrderedMap]
  exact ⟨hchain, by rw [OrderedMap.Keys, hchain]; rfl,
    by rw [OrderedMap.Values, hchain]; rfl⟩

theorem claim_c5_witness :
    c5sample.Copy.chain = c5sample.chain ∧
    c5sample.Copy.Keys = c5sample.Keys ∧
    c5sample.Copy.Values = c5sample.Values :=
  claim_c5_copy c5sample (by decide)


theorem firstOccurAux_congr (l : List GoValue) :
    ∀ s₁ s₂ : List GoValue, (∀ x, x ∈ s₁ ↔ x ∈ s₂) →
    firstOccurAux s₁ l = firstOccurAux s₂ l := by
  induction l with
  | nil => intro s₁ s₂ _; rfl
  | cons k ks ih =>
    intro s₁ s₂ hs
    by_cases hk : k ∈ s₁
    · rw [firstOccurAux, firstOccurAux, if_pos hk, if_pos ((hs k).mp hk)]
      exact ih s₁ s₂ hs
    · rw [firstOccurAux, firstOccurAux, if_neg hk,
        if_neg (fun hc => hk ((hs k).mpr hc))]
      rw [ih (k :: s₁) (k :: s₂) (by intro x; simp [hs x])]

theorem keys_applySets (l : List (GoValue × GoValue)) :
    ∀ om : OrderedMap, WF om → (∀ p ∈ l, p.1 ≠ GoValue.vnil) →
    (applySets om l).Keys =
      om.Keys ++ firstOccurAux om.nodeMap (l.map Prod.fst) := by
  induction l with
  | nil =>
    intro om _ _
    simp [applySets, firstOccurAux]
  | cons p rest ih =>
    intro om hwf hnil
    have hpnil := hnil p (by simp)
    have hwf' := wf_Set om p.1 p.2 hwf
    by_cases hmem : p.1 ∈ om.nodeMap
    · have hstep : (om.Set p.1 p.2).1 =
          { om with chain := valueUpdate om.chain p.1 p.2 } := by
        simp [OrderedMap.Set, hpnil, hmem]
      rw [List.map_cons, firstOccurAux, if_pos hmem]
      show (applySets (om.Set p.1 p.2).1 rest).Keys = _
      rw [hstep] at hwf' ⊢
      rw [ih _ hwf' (fun q hq => hnil q (by simp [hq]))]
      congr 1
      show (valueUpdate om.chain p.1 p.2).map Prod.fst = om.Keys
      exact valueUpdate_map_fst om.chain p.1 p.2
    · have hstep : (om.Set p.1 p.2).1 =
          ⟨om.chain ++ [(p.1, p.2)], p.1 :: om.nodeMap, om.length + 1⟩ := by
        simp [OrderedMap.Set, hpnil, hmem]
      rw [List.map_cons, firstOccurAux, if_neg hmem]
      show (applySets (om.Set p.1 p.2).1 rest).Keys = _
      rw [hstep] at hwf' ⊢
      rw [ih _ hwf' (fun q hq => hnil q (by simp [hq]))]
      show (om.chain ++ [(p.1, p.2)]).map Prod.fst ++ _ = _
      rw [List.map_append]
      rw [List.append_assoc]
      rfl

theorem chainFind_append (l₁ l₂ : List (GoValue × GoValue)) (k : GoValue) :
    chainFind (l₁ ++ l₂) k =
      match chainFind l₁ k with
      | some v => some v
      | none => chainFind l₂ k := by
  induction l₁ with
  | nil => simp [chainFind]
  | cons p rest ih =>
    by_cases hp : p.1 = k <;> simp [chainFind, hp, ih]

theorem chainFind_none_iff (l : List (GoValue × GoValue)) (k : GoValue) :
    chainFind l k = none ↔ k ∉ l.map Prod.fst := by
  induction l with
  | nil => simp [chainFind]
  | cons p rest ih =>
    by_cases hp : p.1 = k
    · simp [chainFind, hp]
    · simp only [chainFind, if_neg hp, List.map_cons, List.mem_cons]
      rw [ih]
      constructor
      · intro h hc
        rcases hc with hc | hc
        · exact hp hc.symm
        · exact h hc
      · intro h hc
        exact h (Or.inr hc)

theorem get_stable (l : List (GoValue × GoValue)) :
    ∀ (om : OrderedMap) (k : GoValue), k ∉ l.map Prod.fst →
    chainFind (applySets om l).chain k = chainFind om.chain k := by
  induction l with
  | nil => intro om k _; rfl
  | cons p rest ih =>
    intro om k hk
    rw [List.map_cons, List.mem_cons] at hk
    push_neg at hk
    show chainFind (applySets (om.Set p.1 p.2).1 rest).chain k = _
    rw [ih _ k hk.2]
    by_cases hpnil : p.1 = GoValue.vnil
    · simp [OrderedMap.Set, hpnil]
    · by_cases hmem : p.1 ∈ om.nodeMap
      · have hstep : (om.Set p.1 p.2).1 =
            { om with chain := valueUpdate om.chain p.1 p.2 } := by
          simp [OrderedMap.Set, hpnil, hmem]
        rw [hstep]
        exact chainFind_valueUpdate_ne om.chain p.1 p.2 k hk.1
      · have hstep : (om.Set p.1 p.2).1 =
            ⟨om.chain ++ [(p.1, p.2)], p.1 :: om.nodeMap, om.length + 1⟩ := by
          simp [OrderedMap.Set, hpnil, hmem]
        rw [hstep]
        show chainFind (om.chain ++ [(p.1, p.2)]) k = _
        rw [chainFind_append]
        have : chainFind [(p.1, p.2)] k = none := by
          simp only [chainFind, if_neg (Ne.symm hk.1)]
        rw [this]
        cases chainFind om.chain k <;> rfl

theorem lastVal_none_iff (k : GoValue) (l : List (GoValue × GoValue)) :
    lastVal k l = none ↔ k ∉ l.map Prod.fst := by
  induction l with
  | nil => simp [lastVal]
  | cons p rest ih =>
    simp only [lastVal, List.map_cons, List.mem_cons]
    cases h : lastVal k rest with
    | some v =>
      have : k ∈ rest.map Prod.fst := by
        by_contra hc
        rw [← ih] at hc
        rw [h] at hc
        exact Option.noConfusion hc
      simp [this]
    | none =>
      have hnotin : k ∉ rest.map Prod.fst := ih.mp h
      by_cases hp : p.1 = k
      · simp [hp]
      · simp [hp, hnotin]
        exact fun hc => hp hc.symm

theorem lastVal_some_mem (k : GoValue) (l : List (GoValue × GoValue))
    (v : GoValue) (h : lastVal k l = some v) : k ∈ l.map Prod.fst := by
  by_contra hc
  rw [← lastVal_none_iff] at hc
  rw [h] at hc
  exact Option.noConfusion hc

theorem get_applySets (l : List (GoValue × GoValue)) :
    ∀ (om : OrderedMap) (k v : GoValue), WF om →
    (∀ p ∈ l, p.1 ≠ GoValue.vnil) → lastVal k l = some v →
    chainFind (applySets om l).chain k = some v := by
  induction l with
  | nil => intro om k v _ _ h; exact absurd h (by simp [lastVal])
  | cons p rest ih =>
    intro om k v hwf hnil hlast
    have hwf' := wf_Set om p.1 p.2 hwf
    rw [lastVal] at hlast
    cases hrest : lastVal k rest with
    | some v₀ =>
      rw [hrest] at hlast
      cases hlast
      exact ih _ k v hwf' (fun q hq => hnil q (by simp [hq])) hrest
    | none =>
      rw [hrest] at hlast
      by_cases hp : p.1 = k
      · rw [if_pos hp] at hlast
        cases hlast
        have hknotin : k ∉ rest.map Prod.fst := (lastVal_none_iff k rest).mp hrest
        show chainFind (applySets (om.Set p.1 p.2).1 rest).chain k = _
        rw [get_stable rest _ k hknotin]
        have hknil : k ≠ GoValue.vnil := hp ▸ hnil p (by simp)
        subst hp
        by_cases hmem : p.1 ∈ om.nodeMap
        · have hstep : (om.Set p.1 p.2).1 =
              { om with chain := valueUpdate om.chain p.1 p.2 } := by
            simp [OrderedMap.Set, hknil, hmem]
          rw [hstep]
          exact chainFind_valueUpdate_self om.chain p.1 p.2
            (hwf.1.mem_iff.mp hmem)
        · have hstep : (om.Set p.1 p.2).1 =
              ⟨om.chain ++ [(p.1, p.2)], p.1 :: om.nodeMap, om.length + 1⟩ := by
            simp [OrderedMap.Set, hknil, hmem]
          rw [hstep]
          show chainFind (om.chain ++ [(p.1, p.2)]) p.1 = _
          rw [chainFind_append]
          have hnone : chainFind om.chain p.1 = none :=
            (chainFind_none_iff om.chain p.1).mpr
              (fun hc => hmem (hwf.1.mem_iff.mpr hc))
          rw [hnone]
          simp [chainFind]
      · rw [if_neg hp] at hlast
        exact Option.noConfusion hlast

theorem valueUpdate_map_snd_set (l : List (GoValue × GoValue))
    (k v : GoValue) :
    (valueUpdate l k v).map Prod.snd =
      (l.map Prod.snd).set ((l.map Prod.fst).findIdx (fun x => x == k)) v := by
  induction l with
  | nil => rfl
  | cons p rest ih =>
    by_cases hp : p.1 = k
    · simp [valueUpdate, hp, List.findIdx_cons]
    · simp only [valueUpdate, if_neg hp, List.map_cons, List.findIdx_cons]
      have : (p.1 == k) = false := by simpa using hp
      rw [this]
      simp only [cond_false, List.set_cons_succ]
      rw [ih]

/-- C1: over any sequence of `Set` operations on a fresh container, `Keys()`
lists exactly the distinct keys in the order each was first inserted, and
`Get` of a key answers the value of its last `Set`; moreover `Set` on an
existing key leaves `Keys()` unchanged and only replaces the value at that
key's existing position in `Values()`. -/
theorem claim_c1_insertion_order :
    (∀ pairs : List (GoValue × GoValue),
      (∀ p ∈ pairs, p.1 ≠ GoValue.vnil) →
      ((applySets NewOrderedMap pairs).Keys =
          firstOccur (pairs.map Prod.fst) ∧
       ∀ k v, lastVal k pairs = some v →
         (applySets NewOrderedMap pairs).Get k = (v, true))) ∧
    (∀ (om : OrderedMap) (k v : GoValue), WF om → om.Has k = true →
      ((om.Set k v).1.Keys = om.Keys ∧
       (om.Set k v).1.Values =
         om.Values.set (om.Keys.findIdx (fun x => x == k)) v)) := by
  constructor
  · intro pairs hnil
    constructor
    · rw [keys_applySets pairs NewOrderedMap wf_new hnil]
      simp [NewOrderedMap, OrderedMap.Keys, firstOccur]
    · intro k v hlast
      have hmem := lastVal_some_mem k pairs v hlast
      have hknil : k ≠ GoValue.vnil := by
        rcases List.mem_map.mp hmem with ⟨p, hp, hq⟩
        exact hq ▸ hnil p hp
      have hfind := get_applySets pairs NewOrderedMap k v wf_new hnil hlast
      simp [OrderedMap.Get, hknil, hfind]
  · intro om k v hwf hhas
    have hknil : k ≠ GoValue.vnil := by
      intro hc
      subst hc
      simp [OrderedMap.Has] at hhas
    have hmem : k ∈ om.nodeMap := by
      simp [OrderedMap.Has, hknil] at hhas
      exact hhas
    have hstep : (om.Set k v).1 =
        { om with chain := valueUpdate om.chain k v } := by
      simp [OrderedMap.Set, hknil, hmem]
    rw [hstep]
    constructor
    · show (valueUpdate om.chain k v).map Prod.fst = _
      exact valueUpdate_map_fst om.chain k v
    · show (valueUpdate om.chain k v).map Prod.snd = _
      exact valueUpdate_map_snd_set om.chain k v

theorem claim_c1_witness :
    (applySets NewOrderedMap c1pairs).Keys =
      firstOccur (c1pairs.map Prod.fst) ∧
    (applySets NewOrderedMap c1pairs).Get (GoValue.vstr "a") =
      (GoValue.vint 3, true) ∧
    (c1sample.Set (GoValue.vstr "a") (GoValue.vint 9)).1.Keys =
      c1sample.Keys := by
  have h := claim_c1_insertion_order
  have h1 := h.1 c1pairs (by decide)
  have h2 := h.2 c1sample (GoValue.vstr "a") (GoValue.vint 9)
    (by decide) (by decide)
  exact ⟨h1.1, h1.2 (GoValue.vstr "a") (GoValue.vint 3) (by decide), h2.1⟩

/-- C8: deserialization of empty (or nil, which is the same zero-length
byte slice) input fails with an error in both `UnmarshalJSON` and
`FromJSON`, while the empty JSON object succeeds and produces a container
with `Len() = 0`. -/
theorem claim_c8_empty_input (om : OrderedMap) (opts : Option JSONOptions) :
    (om.UnmarshalJSON "").2.isSome = true ∧
    (om.FromJSON "" opts).2.isSome = true ∧
    (om.UnmarshalJSON "\x7b\x7d").2 = none ∧
    (om.UnmarshalJSON "\x7b\x7d").1.Len = 0 ∧
    (om.FromJSON "\x7b\x7d" opts).2 = none ∧
    (om.FromJSON "\x7b\x7d" opts).1.Len = 0 := by
  refine ⟨rfl, rfl, rfl, rfl, rfl, rfl⟩

theorem insertLoopStr_err_none (l : List (String × GoValue)) :
    ∀ om : OrderedMap, (insertLoopStr om l).2 = none := by
  induction l with
  | nil => intro om; rfl
  | cons p rest ih =>
    intro om
    have he := set_err_none om (GoValue.vstr p.1) p.2 (by simp)
    simp only [insertLoopStr]
    rcases hs : om.set (GoValue.vstr p.1) p.2 with ⟨om', err⟩
    rw [hs] at he
    simp at he
    subst he
    exact ih om'

theorem fromLoop_err_none (o : JSONOptions) (l : List (String × GoValue)) :
    ∀ om : OrderedMap, (fromLoop o om l).2 = none := by
  induction l with
  | nil => intro om; rfl
  | cons p rest ih =>
    intro om
    have he := set_err_none om
      (if o.KeyAsString then GoValue.vstr p.1 else keyRecover p.1)
      (if o.PreserveType then numCoerce p.2 else p.2)
      (fromLoop_key_ne_nil o p.1)
    simp only [fromLoop]
    rcases hs : om.set
      (if o.KeyAsString then GoValue.vstr p.1 else keyRecover p.1)
      (if o.PreserveType then numCoerce p.2 else p.2) with ⟨om', err⟩
    rw [hs] at he
    simp at he
    subst he
    exact ih om'

/-- C10: whenever `UnmarshalJSON` or `FromJSON` reports an error, the error
came from the parse of the input into the temporary map, which happens
before the receiver is cleared — so the container is exactly as it was. -/
theorem claim_c10_parse_error_preserves (om : OrderedMap) (data : String)
    (opts : Option JSONOptions) :
    ((om.UnmarshalJSON data).2.isSome = true →
      (om.UnmarshalJSON data).1 = om) ∧
    ((om.FromJSON data opts).2.isSome = true →
      (om.FromJSON data opts).1 = om) := by
  constructor
  · cases hd : unmarshalDecode data with
    | error e => intro _; simp [OrderedMap.UnmarshalJSON, hd]
    | ok tmp =>
      intro h
      rw [OrderedMap.UnmarshalJSON] at h
      rw [hd] at h
      simp [insertLoopStr_err_none] at h
  · cases hd : decoderDecode (opts.getD defaultJSONOptions).PreserveType data with
    | error e => intro _; simp [OrderedMap.FromJSON, hd]
    | ok tmp =>
      intro h
      rw [OrderedMap.FromJSON] at h
      simp only [hd] at h
      simp [fromLoop_err_none] at h

theorem claim_c10_witness :
    (c10sample.UnmarshalJSON "[").1 = c10sample ∧
    (c10sample.FromJSON "not json" none).1 = c10sample :=
  ⟨(claim_c10_parse_error_preserves c10sample "[" none).1 (by decide),
   (claim_c10_parse_error_preserves c10sample "not json" none).2 (by decide)⟩

theorem digitChar_isDigit (n : Nat) (h : n < 10) :
    (digitChar n).isDigit = true := by
  interval_cases n <;> decide

theorem digitChar_toNat (n : Nat) (h : n < 10) :
    (digitChar n).toNat = 48 + n := by
  interval_cases n <;> decide

theorem digitChar_ne_zero (n : Nat) (h1 : 1 ≤ n) (h2 : n < 10) :
    digitChar n ≠ '0' := by
  interval_cases n <;> decide

theorem natToDigitsAux_ne_nil (fuel : Nat) :
    ∀ n, n < fuel → natToDigitsAux fuel n ≠ [] := by
  induction fuel with
  | zero => intro n h; omega
  | succ f _ =>
    intro n _
    rw [natToDigitsAux]
    split <;> simp

theorem natToDigits_ne_nil (n : Nat) : natToDigits n ≠ [] :=
  natToDigitsAux_ne_nil (n + 1) n (by omega)

theorem natToDigitsAux_isDigit (fuel : Nat) :
    ∀ n, n < fuel → ∀ c ∈ natToDigitsAux fuel n, c.isDigit = true := by
  induction fuel with
  | zero => intro n h; omega
  | succ f ih =>
    intro n h c hc
    rw [natToDigitsAux] at hc
    by_cases h10 : n < 10
    · rw [if_pos h10] at hc
      rw [List.mem_singleton] at hc
      subst hc
      exact digitChar_isDigit n h10
    · rw [if_neg h10] at hc
      rcases List.mem_append.mp hc with h1 | h1
      · have hdiv : n / 10 < n := by omega
        exact ih (n / 10) (by omega) c h1
      · rw [List.mem_singleton] at h1
        subst h1
        exact digitChar_isDigit (n % 10) (Nat.mod_lt n (by omega))

theorem natToDigits_isDigit (n : Nat) :
    ∀ c ∈ natToDigits n, c.isDigit = true :=
  natToDigitsAux_isDigit (n + 1) n (by omega)

theorem digitsVal_foldl (ds : List Char) :
    ∀ a : Nat, ds.foldl (fun x c => 10 * x + (c.toNat - 48)) a =
      a * 10 ^ ds.length + digitsVal ds := by
  induction ds with
  | nil => intro a; simp [digitsVal]
  | cons c rest ih =>
    intro a
    show rest.foldl _ (10 * a + (c.toNat - 48)) = _
    rw [ih (10 * a + (c.toNat - 48))]
    show _ = a * 10 ^ (rest.length + 1) + digitsVal (c :: rest)
    have : digitsVal (c :: rest) =
        (c.toNat - 48) * 10 ^ rest.length + digitsVal rest := by
      show rest.foldl _ (10 * 0 + (c.toNat - 48)) = _
      rw [ih (10 * 0 + (c.toNat - 48))]
      ring
    rw [this]
    ring

theorem digitsVal_append (l₁ l₂ : List Char) :
    digitsVal (l₁ ++ l₂) = digitsVal l₁ * 10 ^ l₂.length + digitsVal l₂ := by
  show (l₁ ++ l₂).foldl _ 0 = _
  rw [List.foldl_append]
  exact digitsVal_foldl l₂ (digitsVal l₁)

theorem digitsVal_singleton (m : Nat) (h : m < 10) :
    digitsVal [digitChar m] = m := by
  show [digitChar m].foldl _ 0 = m
  simp [digitChar_toNat m h]

theorem digitsVal_natToDigitsAux (fuel : Nat) :
    ∀ n, n < fuel → digitsVal (natToDigitsAux fuel n) = n := by
  induction fuel with
  | zero => intro n h; omega
  | succ f ih =>
    intro n h
    rw [natToDigitsAux]
    by_cases h10 : n < 10
    · rw [if_pos h10]
      exact digitsVal_singleton n h10
    · rw [if_neg h10, digitsVal_append]
      have hdiv : n / 10 < n := by omega
      rw [ih (n / 10) (by omega)]
      rw [show ([digitChar (n % 10)] : List Char).length = 1 from rfl]
      rw [digitsVal_singleton (n % 10) (Nat.mod_lt n (by omega))]
      omega

theorem digitsVal_natToDigits (n : Nat) :
    digitsVal (natToDigits n) = n :=
  digitsVal_natToDigitsAux (n + 1) n (by omega)

theorem digitsVal_replicate_zero (n : Nat) (ds : List Char) :
    digitsVal (List.replicate n '0' ++ ds) = digitsVal ds := by
  rw [digitsVal_append]
  have : digitsVal (List.replicate n '0') = 0 := by
    induction n with
    | zero => rfl
    | succ m ihm =>
      rw [List.replicate_succ]
      show (List.replicate m '0').foldl _ (10 * 0 + ('0'.toNat - 48)) = 0
      rw [digitsVal_foldl]
      simpa using ihm
  rw [this]
  simp

theorem natToDigitsAux_head_ne_zero (fuel : Nat) :
    ∀ n, n < fuel → 1 ≤ n →
    ∀ c, (natToDigitsAux fuel n).head? = some c → c ≠ '0' := by
  induction fuel with
  | zero => intro n h; omega
  | succ f ih =>
    intro n h h1 c hc
    rw [natToDigitsAux] at hc
    by_cases h10 : n < 10
    · rw [if_pos h10] at hc
      rw [List.head?_cons] at hc
      cases hc
      exact digitChar_ne_zero n h1 h10
    · rw [if_neg h10] at hc
      have hdiv : n / 10 < n := by omega
      rcases hnil : natToDigitsAux f (n / 10) with _ | ⟨d, ds⟩
      · exact absurd hnil (natToDigitsAux_ne_nil f (n / 10) (by omega))
      · rw [hnil, List.cons_append, List.head?_cons] at hc
        cases hc
        exact ih (n / 10) (by omega) (by omega) _ (by rw [hnil]; rfl)

theorem natToDigits_head_ne_zero (n : Nat) (h : 1 ≤ n) :
    ∀ c, (natToDigits n).head? = some c → c ≠ '0' :=
  natToDigitsAux_head_ne_zero (n + 1) n (by omega) h

theorem takeDigits_append (ds : List Char) :
    ∀ r : List Char, (∀ c ∈ ds, c.isDigit = true) →
    (∀ c, r.head? = some c → c.isDigit = false) →
    takeDigits (ds ++ r) = (ds, r) := by
  induction ds with
  | nil =>
    intro r _ hr
    cases r with
    | nil => rfl
    | cons c t =>
      have := hr c rfl
      simp [takeDigits, this]
  | cons d ds' ih =>
    intro r hds hr
    have hd : d.isDigit = true := hds d (by simp)
    simp only [List.cons_append, takeDigits, hd, if_pos]
    rw [show ds'.append r = ds' ++ r from rfl]
    rw [ih r (fun c hc => hds c (by simp [hc])) hr]

theorem escapeChar_clean (c : Char) (h : cleanChar c) : escapeChar c = [c] := by
  obtain ⟨h1, h2, h3, h4, h5, h6, h7, h8⟩ := h
  have hn : c ≠ '\n' := by
    intro hc
    subst hc
    simp at h3
  have ht : c ≠ '\t' := by
    intro hc
    subst hc
    simp at h3
  have hr : c ≠ '\r' := by
    intro hc
    subst hc
    simp at h3
  rw [escapeChar, if_neg h1, if_neg h2, if_neg hn, if_neg ht, if_neg hr,
    if_neg (by push_neg; exact ⟨by omega, h4, h5, h6, h7, h8⟩)]

theorem escapeList_clean (s : List Char) (h : ∀ c ∈ s, cleanChar c) :
    escapeList s = s := by
  induction s with
  | nil => rfl
  | cons c rest ih =>
    rw [escapeList, escapeChar_clean c (h c (by simp))]
    rw [ih (fun d hd => h d (by simp [hd]))]
    rfl

theorem parseStringBody_clean (s : List Char) :
    ∀ (r : List Char) (fuel : Nat), (∀ c ∈ s, cleanChar c) →
    s.length < fuel →
    parseStringBodyAux fuel (s ++ '"' :: r) = some (s, r) := by
  induction s with
  | nil =>
    intro r fuel _ hf
    cases fuel with
    | zero => omega
    | succ f => simp [parseStringBodyAux]
  | cons c rest ih =>
    intro r fuel hclean hf
    cases fuel with
    | zero => omega
    | succ f =>
      obtain ⟨h1, h2, h3, _, _, _, _, _⟩ := hclean c (by simp)
      rw [List.cons_append]
      show parseStringBodyAux (f + 1) (c :: (rest ++ '"' :: r)) = _
      simp only [parseStringBodyAux]
      rw [if_neg h1, if_neg h2, if_neg (by omega)]
      rw [ih r f (fun d hd => hclean d (by simp [hd])) (by simpa using hf)]
      rfl

theorem parseNeg_not_dash (s : List Char)
    (h : ∀ c, s.head? = some c → c ≠ '-') : parseNeg s = (false, s) := by
  rw [parseNeg.eq_def]
  split
  · exact absurd rfl (h '-' (by rfl))
  · rfl

theorem parseIntSign_not_sign (s : List Char)
    (h : ∀ c, s.head? = some c → c ≠ '-' ∧ c ≠ '+') :
    parseIntSign s = (false, s) := by
  rw [parseIntSign.eq_def]
  split
  · exact absurd rfl (h '-' (by rfl)).1
  · exact absurd rfl (h '+' (by rfl)).2
  · rfl

theorem stripLit_self (lit r : List Char) : stripLit lit (lit ++ r) = some r := by
  rw [stripLit]
  rw [if_pos (by rw [List.isPrefixOf_iff_prefix]; exact List.prefix_append lit r)]
  rw [List.drop_left]

theorem isDigit_ne_quote (c : Char) (h : c.isDigit = true) :
    c ≠ '"' ∧ c ≠ 't' ∧ c ≠ 'f' ∧ c ≠ 'n' ∧ c ≠ '-' ∧ c ≠ '.' ∧
      c ≠ ',' ∧ c ≠ '}' := by
  refine ⟨?_, ?_, ?_, ?_, ?_, ?_, ?_, ?_⟩ <;>
    · intro hc
      subst hc
      simp at h

theorem leadOK_of_head_ne (ids : List Char)
    (h : ∀ c, ids.head? = some c → c ≠ '0') : leadOK ids = true := by
  rw [leadOK]
  cases hh : ids.head? with
  | none => simp
  | some c =>
    have := h c hh
    simp [hh, this]

theorem leadOK_natToDigits (m : Nat) : leadOK (natToDigits m) = true := by
  by_cases h : m = 0
  · subst h
    decide
  · exact leadOK_of_head_ne _ (natToDigits_head_ne_zero m (by omega))

theorem parseNumber_digits (neg : Bool) (ids fds : List Char) (r : List Char)
    (hids : ∀ c ∈ ids, c.isDigit = true) (hfds : ∀ c ∈ fds, c.isDigit = true)
    (hne : ids ≠ []) (hlead : leadOK ids = true)
    (hr : ∀ c, r.head? = some c → c.isDigit = false)
    (hdot : r.head? ≠ some '.') :
    parseNumber (numLit neg ids fds ++ r) =
      some ((numLit neg ids fds, numRat neg ids fds), r) := by
  obtain ⟨d, ds, hcons⟩ := List.exists_cons_of_ne_nil hne
  have hdmem : d ∈ ids := by
    rw [hcons]
    exact List.mem_cons_self d ds
  have htail : ∀ t : List Char, parseNeg (ids ++ t) = (false, ids ++ t) := by
    intro t
    apply parseNeg_not_dash
    intro c hc
    rw [hcons, List.cons_append, List.head?_cons] at hc
    cases hc
    exact (isDigit_ne_quote _ (hids _ hdmem)).2.2.2.2.1
  cases fds with
  | nil =>
    cases neg with
    | false =>
      have hbody : numLit false ids [] = ids := by
        rw [numLit]
        simp
      rw [hbody]
      rw [parseNumber]
      rw [htail r]
      simp only
      rw [takeDigits_append ids r hids hr]
      simp only
      rw [if_neg hne, if_neg (by simp [hlead])]
      cases r with
      | nil => simp [numLit]
      | cons c t =>
        have hcd : c ≠ '.' := fun hc => hdot (by rw [hc]; rfl)
        rw [show (match (c :: t : List Char) with
          | '.' :: s3 =>
            let fdp := takeDigits s3
            if fdp.1 = [] then none
            else some ((numLit false ids fdp.1, numRat false ids fdp.1), fdp.2)
          | _ => some ((numLit false ids [], numRat false ids []), c :: t)) =
          some ((numLit false ids [], numRat false ids []), c :: t) from by
          split
          · rename_i heq
            rw [List.cons.injEq] at heq
            exact absurd heq.1 hcd
          · rfl]
        rw [hbody]
    | true =>
      have hbody : numLit true ids [] = '-' :: ids := by
        rw [numLit]
        simp
      rw [hbody]
      rw [List.cons_append]
      rw [parseNumber]
      rw [show parseNeg ('-' :: (ids ++ r)) = (true, ids ++ r) from rfl]
      simp only
      rw [takeDigits_append ids r hids hr]
      simp only
      rw [if_neg hne, if_neg (by simp [hlead])]
      cases r with
      | nil => simp [numLit]
      | cons c t =>
        have hcd : c ≠ '.' := fun hc => hdot (by rw [hc]; rfl)
        rw [show (match (c :: t : List Char) with
          | '.' :: s3 =>
            let fdp := takeDigits s3
            if fdp.1 = [] then none
            else some ((numLit true ids fdp.1, numRat true ids fdp.1), fdp.2)
          | _ => some ((numLit true ids [], numRat true ids []), c :: t)) =
          some ((numLit true ids [], numRat true ids []), c :: t) from by
          split
          · rename_i heq
            rw [List.cons.injEq] at heq
            exact absurd heq.1 hcd
          · rfl]
        rw [hbody]
  | cons f fs =>
    have hfne : (f :: fs : List Char) ≠ [] := by simp
    have hmid : ∀ c, ('.' :: ((f :: fs) ++ r) : List Char).head? = some c →
        c.isDigit = false := by
      intro c hc
      rw [List.head?_cons] at hc
      cases hc
      decide
    cases neg with
    | false =>
      have hbody : numLit false ids (f :: fs) = ids ++ '.' :: f :: fs := by
        rw [numLit]
        simp
      rw [hbody]
      rw [List.append_assoc]
      rw [parseNumber]
      rw [htail ('.' :: f :: fs ++ r)]
      simp only
      rw [show ('.' :: f :: fs ++ r : List Char) =
        '.' :: ((f :: fs) ++ r) from rfl]
      rw [takeDigits_append ids ('.' :: ((f :: fs) ++ r)) hids hmid]
      simp only
      rw [if_neg hne, if_neg (by simp [hlead])]
      rw [takeDigits_append (f :: fs) r hfds hr]
      simp only
      rw [if_neg hfne]
      rw [hbody]
    | true =>
      have hbody : numLit true ids (f :: fs) =
          '-' :: (ids ++ '.' :: f :: fs) := by
        rw [numLit]
        simp
      rw [hbody]
      rw [List.cons_append, List.append_assoc]
      rw [parseNumber]
      rw [show parseNeg ('-' :: (ids ++ ('.' :: f :: fs ++ r))) =
        (true, ids ++ ('.' :: f :: fs ++ r)) from rfl]
      simp only
      rw [show ('.' :: f :: fs ++ r : List Char) =
        '.' :: ((f :: fs) ++ r) from rfl]
      rw [takeDigits_append ids ('.' :: ((f :: fs) ++ r)) hids hmid]
      simp only
      rw [if_neg hne, if_neg (by simp [hlead])]
      rw [takeDigits_append (f :: fs) r hfds hr]
      simp only
      rw [if_neg hfne]
      rw [hbody]

theorem tenPow_eq (e : Nat) : tenPow e = (10 : ℚ) ^ e := by
  rw [tenPow, Rat.mkRat_one]
  push_cast
  ring

theorem tenPow_ne_zero (e : Nat) : tenPow e ≠ 0 := by
  rw [tenPow_eq]
  positivity

theorem decimal_q_eq (q : ℚ) (e : Nat) (h : (q * tenPow e).den = 1) :
    q = mkRat (q * tenPow e).num ((10 : Nat) ^ e) := by
  have h1 : (((q * tenPow e).num : ℚ)) = q * tenPow e :=
    Rat.coe_int_num_of_den_eq_one h
  rw [Rat.mkRat_eq_div, h1, tenPow_eq]
  have hp : ((10 : ℚ)) ^ e ≠ 0 := by positivity
  push_cast
  field_simp

theorem numRat_nil (neg : Bool) (ids : List Char) :
    numRat neg ids [] =
      (if neg then -(digitsVal ids : ℚ) else (digitsVal ids : ℚ)) := by
  rw [numRat]
  have : mkRat (digitsVal ids * 10 ^ ([] : List Char).length +
      digitsVal ([] : List Char) : Nat) (10 ^ ([] : List Char).length) =
      ((digitsVal ids : ℚ)) := by
    show mkRat (digitsVal ids * 10 ^ 0 + digitsVal ([] : List Char) : Nat)
      (10 ^ 0) = _
    rw [show (digitsVal ids * 10 ^ 0 + digitsVal ([] : List Char)) =
      digitsVal ids from by simp [digitsVal]]
    rw [show (10 : Nat) ^ 0 = 1 from rfl]
    rw [Rat.mkRat_one]
    push_cast
    rfl
  rw [this]

theorem intChars_eq_numLit (n : Int) :
    intChars n = numLit (decide (n < 0)) (natToDigits n.natAbs) [] := by
  rw [intChars, numLit]
  by_cases hneg : n < 0 <;> simp [hneg]

theorem numRat_intChars (n : Int) :
    numRat (decide (n < 0)) (natToDigits n.natAbs) [] = (n : ℚ) := by
  rw [numRat_nil, digitsVal_natToDigits]
  by_cases hneg : n < 0
  · rw [if_pos (by simpa using hneg)]
    rw [Int.cast_natAbs]
    rw [abs_of_neg hneg]
    push_cast
    ring
  · rw [if_neg (by simpa using hneg)]
    rw [Int.cast_natAbs]
    rw [abs_of_nonneg (not_lt.mp hneg)]

theorem parseNumber_intChars (n : Int) (r : List Char)
    (hr : ∀ c, r.head? = some c → c.isDigit = false)
    (hdot : r.head? ≠ some '.') :
    parseNumber (intChars n ++ r) = some ((intChars n, (n : ℚ)), r) := by
  rw [intChars_eq_numLit]
  rw [parseNumber_digits (decide (n < 0)) (natToDigits n.natAbs) [] r
    (natToDigits_isDigit _) (by simp) (natToDigits_ne_nil _)
    (leadOK_natToDigits _) hr hdot]
  rw [numRat_intChars]

theorem ratChars_int (q : ℚ) (h : q.den = 1) : ratChars q = intChars q.num := by
  rw [ratChars, if_pos h]

theorem parseNumber_ratChars (q : ℚ) (r : List Char) (hq : DecimalRat q)
    (hr : ∀ c, r.head? = some c → c.isDigit = false)
    (hdot : r.head? ≠ some '.') :
    parseNumber (ratChars q ++ r) = some ((ratChars q, q), r) := by
  by_cases hden : q.den = 1
  · rw [ratChars_int q hden]
    rw [parseNumber_intChars q.num r hr hdot]
    rw [Rat.coe_int_num_of_den_eq_one hden]
  · have hq' : (q * tenPow (ratDecExp q)).den = 1 := hq
    set e := ratDecExp q with he
    set m := (q * tenPow e).num with hm
    set ds := natToDigits m.natAbs with hds
    set padded := List.replicate (e + 1 - ds.length) '0' ++ ds with hpad
    set ids := padded.take (padded.length - e) with hids0
    set fds := padded.drop (padded.length - e) with hfds0
    have hdsne : ds ≠ [] := by rw [hds]; exact natToDigits_ne_nil _
    have hdslen : 1 ≤ ds.length := List.length_pos.mpr hdsne
    have hLpad : padded.length = (e + 1 - ds.length) + ds.length := by
      rw [hpad]
      simp
    have hLge : e + 1 ≤ padded.length := by omega
    have he1 : 1 ≤ e := by
      by_contra h0
      have he0 : e = 0 := by omega
      rw [he0] at hq'
      have ht : tenPow 0 = 1 := by
        rw [tenPow_eq]
        norm_num
      rw [ht, mul_one] at hq'
      exact hden hq'
    have hqne : q ≠ 0 := by
      intro h0
      rw [h0] at hden
      exact hden rfl
    have hmne : m ≠ 0 := by
      rw [hm]
      exact Rat.num_ne_zero.mpr (mul_ne_zero hqne (tenPow_ne_zero e))
    have hfdslen : fds.length = e := by
      rw [hfds0, List.length_drop]
      omega
    have hidslen : ids.length = padded.length - e := by
      rw [hids0, List.length_take]
      omega
    have hidsne : ids ≠ [] := by
      apply List.length_pos.mp
      omega
    have hfdsne : fds ≠ [] := by
      apply List.length_pos.mp
      omega
    have hpadDigits : ∀ c ∈ padded, c.isDigit = true := by
      intro c hc
      rw [hpad] at hc
      rcases List.mem_append.mp hc with h1 | h1
      · rw [List.eq_of_mem_replicate h1]
        decide
      · rw [hds] at h1
        exact natToDigits_isDigit _ c h1
    have hidsD : ∀ c ∈ ids, c.isDigit = true := fun c hc =>
      hpadDigits c (List.take_subset _ _ hc)
    have hfdsD : ∀ c ∈ fds, c.isDigit = true := fun c hc =>
      hpadDigits c (List.drop_subset _ _ hc)
    have hlead : leadOK ids = true := by
      by_cases hshort : ds.length ≤ e
      · have hlen1 : ids.length = 1 := by omega
        rw [leadOK]
        simp [hlen1]
      · have hpadeq : padded = ds := by
          rw [hpad, show e + 1 - ds.length = 0 from by omega]
          rfl
        obtain ⟨d, ds', hcons⟩ := List.exists_cons_of_ne_nil hdsne
        have hd0 : d ≠ '0' := by
          apply natToDigits_head_ne_zero m.natAbs
            (by
              have := Int.natAbs_pos.mpr hmne
              omega)
          rw [← hds, hcons]
          rfl
        apply leadOK_of_head_ne
        intro c hc
        rw [hids0, hpadeq, hcons] at hc
        obtain ⟨k, hk⟩ : ∃ k, (d :: ds').length - e = k + 1 := by
          refine ⟨(d :: ds').length - e - 1, ?_⟩
          have : (d :: ds').length = ds.length := by rw [hcons]
          omega
        rw [hk] at hc
        rw [List.take_succ_cons, List.head?_cons] at hc
        cases hc
        exact hd0
    have hnumlit : numLit (decide (m < 0)) ids fds = ratChars q := by
      rw [numLit, ratChars, if_neg hden]
      rw [if_neg hfdsne]
      show _ = (if m < 0 then ['-'] else []) ++ ids ++ '.' :: fds
      by_cases hneg : m < 0 <;> simp [hneg]
    have hsum : digitsVal ids * 10 ^ fds.length + digitsVal fds =
        m.natAbs := by
      rw [← digitsVal_append, hids0, hfds0, List.take_append_drop, hpad,
        digitsVal_replicate_zero, hds, digitsVal_natToDigits]
    have hqm : q = mkRat m ((10 : Nat) ^ e) := by
      rw [hm, he]
      exact decimal_q_eq q (ratDecExp q) hq'
    have hval : numRat (decide (m < 0)) ids fds = q := by
      rw [numRat]
      rw [hsum, hfdslen]
      by_cases hneg : m < 0
      · rw [if_pos (by simpa using hneg)]
        have habs : ((m.natAbs : Int)) = -m := by omega
        rw [hqm]
        rw [show ((m.natAbs : Nat) : Int) = -m from habs]
        rw [show mkRat (-m) ((10 : Nat) ^ e) = -mkRat m ((10 : Nat) ^ e) from
          (Rat.neg_mkRat m ((10 : Nat) ^ e)).symm]
        ring
      · rw [if_neg (by simpa using hneg)]
        have habs : ((m.natAbs : Int)) = m := by omega
        rw [hqm, habs]
    rw [← hnumlit]
    rw [parseNumber_digits (decide (m < 0)) ids fds r hidsD hfdsD hidsne
      hlead hr hdot]
    rw [hval]

theorem den_one_decimal (q : ℚ) (h : q.den = 1) : DecimalRat q := by
  rw [DecimalRat, tenPow_eq]
  have h1 : ((q.num : ℚ)) = q := Rat.coe_int_num_of_den_eq_one h
  rw [← h1]
  rw [show ((q.num : ℚ)) * (10 : ℚ) ^ ratDecExp ((q.num : ℚ)) =
    (((q.num * 10 ^ ratDecExp ((q.num : ℚ)) : Int)) : ℚ) from by push_cast; ring]
  exact Rat.den_intCast _

theorem ratChars_intCast (n : Int) : ratChars ((n : ℚ)) = intChars n := by
  rw [ratChars, if_pos (Rat.den_intCast n), Rat.num_intCast]

theorem parseNumber_head (s : List Char) (x : (List Char × ℚ) × List Char)
    (h : parseNumber s = some x) :
    ∃ c t, s = c :: t ∧ (c = '-' ∨ c.isDigit = true) := by
  cases s with
  | nil => simp [parseNumber, parseNeg, takeDigits] at h
  | cons c t =>
    by_cases hc : c = '-'
    · exact ⟨c, t, rfl, Or.inl hc⟩
    · by_cases hd : c.isDigit = true
      · exact ⟨c, t, rfl, Or.inr hd⟩
      · exfalso
        rw [parseNumber] at h
        rw [parseNeg_not_dash (c :: t) (by
          intro d hd'
          rw [List.head?_cons] at hd'
          cases hd'
          exact hc)] at h
        simp only at h
        rw [show takeDigits (c :: t) = ([], c :: t) from by
          rw [takeDigits]
          rw [if_neg hd]] at h
        simp at h

theorem parseValue_number (q : ℚ) (r : List Char) (hq : DecimalRat q)
    (hr : ∀ c, r.head? = some c → c.isDigit = false)
    (hdot : r.head? ≠ some '.') :
    parseValue (ratChars q ++ r) =
      some (JVal.jnum (String.mk (ratChars q)) q, r) := by
  have hp := parseNumber_ratChars q r hq hr hdot
  obtain ⟨c, t, hcons, hcd⟩ := parseNumber_head _ _ hp
  have hne : c ≠ '"' ∧ c ≠ 't' ∧ c ≠ 'f' ∧ c ≠ 'n' := by
    rcases hcd with hcd | hcd
    · subst hcd
      refine ⟨by decide, by decide, by decide, by decide⟩
    · have := isDigit_ne_quote c hcd
      exact ⟨this.1, this.2.1, this.2.2.1, this.2.2.2.1⟩
  rw [hcons]
  rw [parseValue]
  rw [if_neg hne.1, if_neg hne.2.1, if_neg hne.2.2.1, if_neg hne.2.2.2]
  rw [if_pos hcd]
  rw [← hcons]
  rw [hp]
  rfl

theorem parseValue_print (v : GoValue) (r : List Char) (hv : scalarClean v)
    (hr : ∀ c, r.head? = some c → c.isDigit = false)
    (hdot : r.head? ≠ some '.') :
    parseValue (printGoValue v ++ r) = some (jvalOf v, r) := by
  cases v with
  | vstr s =>
    show parseValue (printJString s ++ r) = some (JVal.jstr s, r)
    rw [printJString]
    rw [escapeList_clean s.data hv]
    rw [show ('"' :: s.data ++ ['"'] ++ r : List Char) =
      '"' :: (s.data ++ '"' :: r) from by simp]
    rw [parseValue]
    rw [if_pos rfl]
    rw [parseStringBody_clean s.data r ((s.data ++ '"' :: r).length + 1) hv
      (by simp; omega)]
    rfl
  | vint n =>
    show parseValue (intChars n ++ r) =
      some (JVal.jnum (String.mk (intChars n)) ((n : ℚ)), r)
    rw [← ratChars_intCast n]
    exact parseValue_number ((n : ℚ)) r
      (den_one_decimal _ (Rat.den_intCast n)) hr hdot
  | vfloat q => exact parseValue_number q r hv hr hdot
  | vbool b =>
    cases b with
    | true =>
      show parseValue ("true".data ++ r) = some (JVal.jbool true, r)
      rw [show ("true".data ++ r : List Char) = 't' :: ("rue".data ++ r)
        from rfl]
      rw [parseValue]
      rw [if_neg (by decide), if_pos rfl]
      rw [stripLit_self]
      rfl
    | false =>
      show parseValue ("false".data ++ r) = some (JVal.jbool false, r)
      rw [show ("false".data ++ r : List Char) = 'f' :: ("alse".data ++ r)
        from rfl]
      rw [parseValue]
      rw [if_neg (by decide), if_neg (by decide), if_pos rfl]
      rw [stripLit_self]
      rfl
  | vnil =>
    show parseValue ("null".data ++ r) = some (JVal.jnull, r)
    rw [show ("null".data ++ r : List Char) = 'n' :: ("ull".data ++ r)
      from rfl]
    rw [parseValue]
    rw [if_neg (by decide), if_neg (by decide), if_neg (by decide),
      if_pos rfl]
    rw [stripLit_self]
    rfl
  | vnum lit => exact absurd hv (by simp [scalarClean])

theorem printMembers_length (l : List (String × GoValue)) :
    l.length ≤ (printMembers l).length := by
  induction l with
  | nil => simp [printMembers]
  | cons p rest ih =>
    cases rest with
    | nil =>
      show 1 ≤ (printMember p).length
      rw [printMember, printJString]
      simp
    | cons q rest' =>
      show (q :: rest').length + 1 ≤
        (printMember p ++ ',' :: printMembers (q :: rest')).length
      rw [List.length_append]
      rw [printMember, printJString]
      simp only [List.length_cons]
      have := ih
      simp at this ⊢
      omega

theorem parseMembers_print (l : List (String × GoValue)) :
    ∀ (fuel : Nat) (r : List Char), l ≠ [] →
    (∀ p ∈ l, cleanString p.1 ∧ scalarClean p.2) → l.length ≤ fuel →
    parseMembersAux fuel (printMembers l ++ '}' :: r) =
      some (l.map (fun p => (p.1, jvalOf p.2)), r) := by
  induction l with
  | nil =>
    intro fuel r hne _ _
    exact absurd rfl hne
  | cons p rest ih =>
    intro fuel r _ hclean hfuel
    obtain ⟨f, rfl⟩ : ∃ f, fuel = f + 1 := ⟨fuel - 1, by simp at hfuel; omega⟩
    have hclean1 := (hclean p (by simp)).1
    have hclean2 := (hclean p (by simp)).2
    cases rest with
    | nil =>
      have hshape : printMembers [p] ++ '}' :: r =
          '"' :: (p.1.data ++ '"' :: ':' ::
            (printGoValue p.2 ++ '}' :: r)) := by
        show printMember p ++ '}' :: r = _
        rw [printMember, printJString, escapeList_clean _ hclean1]
        simp
      rw [hshape]
      have hsb := parseStringBody_clean p.1.data
        (':' :: (printGoValue p.2 ++ '}' :: r))
        ((p.1.data ++ '"' :: ':' :: (printGoValue p.2 ++ '}' :: r)).length + 1)
        hclean1 (by simp; omega)
      have hpv := parseValue_print p.2 ('}' :: r) hclean2
        (by intro c hc; rw [List.head?_cons] at hc; cases hc; decide)
        (by simp)
      simp only [parseMembersAux, hsb, hpv]
      rfl
    | cons q rest' =>
      have hshape : printMembers (p :: q :: rest') ++ '}' :: r =
          '"' :: (p.1.data ++ '"' :: ':' ::
            (printGoValue p.2 ++ ',' ::
              (printMembers (q :: rest') ++ '}' :: r))) := by
        show printMember p ++ ',' :: printMembers (q :: rest') ++ '}' :: r = _
        rw [printMember, printJString, escapeList_clean _ hclean1]
        simp
      rw [hshape]
      have hsb := parseStringBody_clean p.1.data
        (':' :: (printGoValue p.2 ++ ',' ::
          (printMembers (q :: rest') ++ '}' :: r)))
        ((p.1.data ++ '"' :: ':' :: (printGoValue p.2 ++ ',' ::
          (printMembers (q :: rest') ++ '}' :: r))).length + 1)
        hclean1 (by simp; omega)
      have hpv := parseValue_print p.2
        (',' :: (printMembers (q :: rest') ++ '}' :: r)) hclean2
        (by intro c hc; rw [List.head?_cons] at hc; cases hc; decide)
        (by simp)
      have hrec := ih f r (by simp)
        (fun x hx => hclean x (by simp [hx]))
        (by simp at hfuel ⊢; omega)
      simp only [parseMembersAux, hsb, hpv, hrec]
      rfl

theorem printMembers_cons_head (p : String × GoValue)
    (rest : List (String × GoValue)) :
    ∃ t, printMembers (p :: rest) = '"' :: t := by
  cases rest with
  | nil => exact ⟨_, rfl⟩
  | cons q rest' => exact ⟨_, rfl⟩

theorem parseObject_print (l : List (String × GoValue)) (r : List Char)
    (hclean : ∀ p ∈ l, cleanString p.1 ∧ scalarClean p.2) :
    parseObject (printObject l ++ r) =
      some (l.map (fun p => (p.1, jvalOf p.2)), r) := by
  cases l with
  | nil =>
    show parseObject ('{' :: '}' :: r) = some ([], r)
    rfl
  | cons p rest =>
    obtain ⟨t, ht⟩ := printMembers_cons_head p rest
    rw [printObject]
    rw [show ('{' :: printMembers (p :: rest) ++ ['}'] ++ r : List Char) =
      '{' :: (printMembers (p :: rest) ++ '}' :: r) from by simp]
    rw [parseObject]
    rw [ht]
    show parseMembersAux ('"' :: t ++ '}' :: r).length
      ('"' :: t ++ '}' :: r) = _
    rw [← ht]
    have hlen : (p :: rest).length ≤
        (printMembers (p :: rest) ++ '}' :: r).length := by
      rw [List.length_append]
      have := printMembers_length (p :: rest)
      simp at this ⊢
      omega
    exact parseMembers_print (p :: rest) _ r (by simp) hclean hlen
    intro r2 hcontra
    rw [ht] at hcontra
    simp at hcontra

theorem mapUpsert_append (acc : List (String × GoValue)) (k : String)
    (v : GoValue) (h : k ∉ acc.map Prod.fst) :
    mapUpsert acc k v = acc ++ [(k, v)] := by
  induction acc with
  | nil => rfl
  | cons p rest ih =>
    rw [List.map_cons, List.mem_cons] at h
    push_neg at h
    rw [mapUpsert, if_neg (fun hc => h.1 hc.symm)]
    rw [ih h.2]
    rfl

theorem insertAllStr_fresh (l : List (String × GoValue)) :
    ∀ acc : List (String × GoValue), (l.map Prod.fst).Nodup →
    (∀ k ∈ l.map Prod.fst, k ∉ acc.map Prod.fst) →
    insertAllStr acc l = acc ++ l := by
  induction l with
  | nil => intro acc _ _; simp [insertAllStr]
  | cons p rest ih =>
    intro acc hdup hfresh
    rw [List.map_cons, List.nodup_cons] at hdup
    rw [insertAllStr]
    rw [mapUpsert_append acc p.1 p.2 (hfresh p.1 (by simp))]
    rw [ih (acc ++ [(p.1, p.2)]) hdup.2 (by
      intro k hk
      rw [List.map_append, List.mem_append]
      push_neg
      constructor
      · exact hfresh k (by simp [hk])
      · intro hc
        simp at hc
        subst hc
        exact hdup.1 hk)]
    simp

theorem insertAllStr_id (l : List (String × GoValue))
    (h : (l.map Prod.fst).Nodup) : insertAllStr [] l = l := by
  rw [insertAllStr_fresh l [] h (by simp)]
  rfl

theorem buildTmp_default (l : List (String × GoValue)) :
    ∀ acc : List (String × GoValue),
    buildTmp defaultJSONOptions (l.map (fun p => (GoValue.vstr p.1, p.2)))
      acc = Except.ok (insertAllStr acc l) := by
  induction l with
  | nil => intro acc; rfl
  | cons p rest ih =>
    intro acc
    rw [List.map_cons, buildTmp]
    show buildTmp defaultJSONOptions _ (mapUpsert acc p.1 p.2) = _
    rw [ih (mapUpsert acc p.1 p.2)]
    rfl

theorem insertSorted_perm (p : String × GoValue)
    (l : List (String × GoValue)) :
    List.Perm (insertSorted p l) (p :: l) := by
  induction l with
  | nil => exact List.Perm.refl _
  | cons q rest ih =>
    rw [insertSorted]
    by_cases h : p.1 < q.1
    · rw [if_pos h]
    · rw [if_neg h]
      exact (ih.cons q).trans (List.Perm.swap p q rest)

theorem sortByKey_perm (l : List (String × GoValue)) :
    List.Perm (sortByKey l) l := by
  induction l with
  | nil => exact List.Perm.refl _
  | cons p rest ih =>
    rw [sortByKey]
    exact (insertSorted_perm p (sortByKey rest)).trans (ih.cons p)

theorem decodeJVal_false_jvalOf (v : GoValue) (hv : scalarClean v) :
    decodeJVal false (jvalOf v) = floatized v := by
  cases v <;> first
    | rfl
    | exact absurd hv (by simp [scalarClean])

theorem fromLoop_default_eq (l : List (String × GoValue)) :
    ∀ om : OrderedMap, fromLoop defaultJSONOptions om l =
      (applySets om (l.map (fun p => (GoValue.vstr p.1, p.2))), none) := by
  induction l with
  | nil => intro om; rfl
  | cons p rest ih =>
    intro om
    rw [fromLoop]
    rw [show (if defaultJSONOptions.KeyAsString = true then GoValue.vstr p.1
      else keyRecover p.1) = GoValue.vstr p.1 from rfl]
    rw [show (if defaultJSONOptions.PreserveType = true then numCoerce p.2
      else p.2) = p.2 from rfl]
    have he := set_err_none om (GoValue.vstr p.1) p.2 (by simp)
    rcases hs : om.set (GoValue.vstr p.1) p.2 with ⟨om', err⟩
    rw [hs] at he
    simp at he
    subst he
    show fromLoop defaultJSONOptions om' rest = _
    rw [ih om']
    rw [List.map_cons]
    show _ = (applySets (om.Set (GoValue.vstr p.1) p.2).1 _, none)
    rw [Set_eq_set, hs]

theorem chainFind_vstr_map (l : List (String × GoValue)) (k : String) :
    chainFind (l.map (fun p => (GoValue.vstr p.1, p.2))) (GoValue.vstr k) =
      strFind l k := by
  induction l with
  | nil => rfl
  | cons p rest ih =>
    by_cases h : p.1 = k
    · subst h
      simp [chainFind, strFind]
    · rw [List.map_cons]
      rw [show chainFind ((GoValue.vstr p.1, p.2) ::
        rest.map (fun p => (GoValue.vstr p.1, p.2))) (GoValue.vstr k) =
        chainFind (rest.map (fun p => (GoValue.vstr p.1, p.2)))
          (GoValue.vstr k) from by
        rw [chainFind]
        rw [if_neg (by simp [h])]]
      rw [strFind, if_neg h]
      exact ih

theorem strFind_perm (l₁ l₂ : List (String × GoValue))
    (hperm : List.Perm l₁ l₂) (hdup : (l₁.map Prod.fst).Nodup) :
    ∀ k, strFind l₁ k = strFind l₂ k := by
  induction hperm with
  | nil => intro k; rfl
  | cons p _ ih =>
    intro k
    rw [strFind, strFind]
    by_cases h : p.1 = k
    · rw [if_pos h, if_pos h]
    · rw [if_neg h, if_neg h]
      rw [List.map_cons, List.nodup_cons] at hdup
      exact ih hdup.2 k
  | swap x y l =>
    intro k
    rw [List.map_cons, List.map_cons, List.nodup_cons, List.nodup_cons] at hdup
    by_cases hy : y.1 = k
    · by_cases hx : x.1 = k
      · exfalso
        apply hdup.1
        rw [List.mem_cons]
        exact Or.inl (hx ▸ hy.symm ▸ rfl)
      · simp [strFind, hy, hx]
    · by_cases hx : x.1 = k <;> simp [strFind, hy, hx]
  | trans h12 _ ih1 ih2 =>
    intro k
    rw [ih1 hdup k]
    have hdup2 := ((h12.map Prod.fst).nodup_iff).mp hdup
    exact ih2 hdup2 k

theorem strFind_of_mem (l : List (String × GoValue)) (k : String)
    (v : GoValue) (hdup : (l.map Prod.fst).Nodup) (hmem : (k, v) ∈ l) :
    strFind l k = some v := by
  induction l with
  | nil => simp at hmem
  | cons p rest ih =>
    rw [List.map_cons, List.nodup_cons] at hdup
    rcases List.mem_cons.mp hmem with h | h
    · subst h
      simp [strFind]
    · have hk : p.1 ≠ k := by
        intro hc
        apply hdup.1
        rw [hc]
        exact List.mem_map.mpr ⟨(k, v), h, rfl⟩
      rw [strFind, if_neg hk]
      exact ih hdup.2 h

theorem vstr_map_fst_nodup (l : List (String × GoValue))
    (hdup : (l.map Prod.fst).Nodup) :
    ((l.map (fun p => (GoValue.vstr p.1, p.2))).map Prod.fst).Nodup := by
  rw [show (l.map (fun p => (GoValue.vstr p.1, p.2))).map Prod.fst =
    (l.map Prod.fst).map GoValue.vstr from by
    rw [List.map_map, List.map_map]
    rfl]
  exact hdup.map (fun a b hab => by simpa using hab)

/-- C6 (amended): serializing a container of clean text keys and scalar
values with `ToJSON` under default options and deserializing the bytes with
`FromJSON` under default options succeeds, and `Get` of each original key
returns the original value with integer values coerced to float64.  (The
"unless the type-preservation option is used" exception of the claim fails:
see the counterexample — with `PreserveType` integers are still coerced.) -/
theorem claim_c6_theorem (l : List (String × GoValue))
    (hdup : (l.map Prod.fst).Nodup)
    (hclean : ∀ p ∈ l, cleanString p.1 ∧ scalarClean p.2) :
    ∃ data : String,
      (buildFromStr l).ToJSON none = Except.ok data ∧
      (NewOrderedMap.FromJSON data none).2 = none ∧
      ∀ p ∈ l, (NewOrderedMap.FromJSON data none).1.Get (GoValue.vstr p.1) =
        (floatized p.2, true) := by
  have happ := applySets_fresh (l.map (fun p => (GoValue.vstr p.1, p.2)))
    NewOrderedMap
    (by
      intro p hp
      rcases List.mem_map.mp hp with ⟨x, _, rfl⟩
      simp)
    (vstr_map_fst_nodup l hdup)
    (by intro p _; simp [NewOrderedMap])
  have hchain : (buildFromStr l).chain =
      l.map (fun p => (GoValue.vstr p.1, p.2)) := by
    rw [buildFromStr, happ.1]
    simp [NewOrderedMap]
  set sl := sortByKey l with hsl
  have hperm : List.Perm sl l := sortByKey_perm l
  have hsl_dup : (sl.map Prod.fst).Nodup :=
    ((hperm.map Prod.fst).nodup_iff).mpr hdup
  have hsl_clean : ∀ p ∈ sl, cleanString p.1 ∧ scalarClean p.2 :=
    fun p hp => hclean p (hperm.mem_iff.mp hp)
  have hpo : parseObject (printObject sl) =
      some (sl.map (fun p => (p.1, jvalOf p.2)), []) := by
    have h := parseObject_print sl [] hsl_clean
    rwa [List.append_nil] at h
  set slf := sl.map (fun p => (p.1, floatized p.2)) with hslf
  have hslf_keys : slf.map Prod.fst = sl.map Prod.fst := by
    rw [hslf, List.map_map]
    rfl
  have hslf_dup : (slf.map Prod.fst).Nodup := by
    rw [hslf_keys]
    exact hsl_dup
  have hdec : decoderDecode false (String.mk (printObject sl)) =
      Except.ok slf := by
    rw [decoderDecode]
    rw [show (String.mk (printObject sl)).data = printObject sl from rfl]
    rw [hpo]
    show Except.ok
      (jmembersToMap false (sl.map (fun p => (p.1, jvalOf p.2)))) = _
    rw [jmembersToMap, List.map_map]
    have hmapeq : sl.map ((fun p => (p.1, decodeJVal false p.2)) ∘
        (fun p => (p.1, jvalOf p.2))) = slf := by
      rw [hslf]
      apply List.map_congr_left
      intro p hp
      show (p.1, decodeJVal false (jvalOf p.2)) = (p.1, floatized p.2)
      rw [decodeJVal_false_jvalOf p.2 (hsl_clean p hp).2]
    rw [hmapeq]
    rw [insertAllStr_id slf hslf_dup]
  have hfj : NewOrderedMap.FromJSON (String.mk (printObject sl)) none =
      (applySets (OrderedMap.mk [] [] 0)
        (slf.map (fun p => (GoValue.vstr p.1, p.2))), none) := by
    show (match decoderDecode false (String.mk (printObject sl)) with
      | Except.error e => (NewOrderedMap, some e)
      | Except.ok tmp =>
        fromLoop defaultJSONOptions (OrderedMap.mk [] [] 0) tmp) = _
    rw [hdec]
    show fromLoop defaultJSONOptions (OrderedMap.mk [] [] 0) slf = _
    rw [fromLoop_default_eq]
  have happ2 := applySets_fresh (slf.map (fun p => (GoValue.vstr p.1, p.2)))
    (OrderedMap.mk [] [] 0)
    (by
      intro p hp
      rcases List.mem_map.mp hp with ⟨x, _, rfl⟩
      simp)
    (vstr_map_fst_nodup slf hslf_dup)
    (by intro p _; simp)
  have hchain2 : (applySets (OrderedMap.mk [] [] 0)
      (slf.map (fun p => (GoValue.vstr p.1, p.2)))).chain =
      slf.map (fun p => (GoValue.vstr p.1, p.2)) := by
    rw [happ2.1]
    rfl
  refine ⟨String.mk (printObject sl), ?_, ?_, ?_⟩
  · show (match buildTmp defaultJSONOptions (buildFromStr l).chain [] with
      | Except.error e => Except.error e
      | Except.ok tmp => Except.ok (String.mk
          (if defaultJSONOptions.PrettyPrint then
            printObjectIndent (sortByKey tmp)
           else printObject (sortByKey tmp)))) =
      Except.ok (String.mk (printObject sl))
    rw [hchain, buildTmp_default l [], insertAllStr_id l hdup]
    rfl
  · rw [hfj]
  · intro p hp
    rw [hfj]
    show (applySets (OrderedMap.mk [] [] 0)
      (slf.map (fun p => (GoValue.vstr p.1, p.2)))).Get (GoValue.vstr p.1) = _
    rw [OrderedMap.Get]
    rw [if_neg (by simp)]
    have hfind : chainFind (applySets (OrderedMap.mk [] [] 0)
        (slf.map (fun p => (GoValue.vstr p.1, p.2)))).chain
        (GoValue.vstr p.1) = some (floatized p.2) := by
      rw [hchain2, chainFind_vstr_map slf p.1]
      have hlf : List.Perm slf (l.map (fun q => (q.1, floatized q.2))) :=
        hperm.map _
      rw [strFind_perm slf _ hlf hslf_dup p.1]
      apply strFind_of_mem
      · rw [show (l.map (fun q => (q.1, floatized q.2))).map Prod.fst =
          l.map Prod.fst from by rw [List.map_map]; rfl]
        exact hdup
      · exact List.mem_map.mpr ⟨p, hp, rfl⟩
    rw [hfind]

theorem float64Of_of_parseNumber (s : List Char) (lit : List Char) (q : ℚ)
    (h : parseNumber s = some ((lit, q), [])) :
    float64Of (String.mk s) = some q := by
  have hsign : parseIntSign s = parseNeg s := by
    cases s with
    | nil => rfl
    | cons c t =>
      by_cases hc : c = '-'
      · subst hc; rfl
      · by_cases hp : c = '+'
        · subst hp
          exfalso
          rw [parseNumber] at h
          rw [parseNeg_not_dash ('+' :: t) (by
            intro d hd
            rw [List.head?_cons] at hd
            cases hd
            decide)] at h
          simp only at h
          rw [show takeDigits ('+' :: t) = ([], '+' :: t) from by
            rw [takeDigits]
            rw [if_neg (by decide)]] at h
          simp at h
        · rw [parseIntSign_not_sign _ (by
            intro d hd
            rw [List.head?_cons] at hd
            cases hd
            exact ⟨hc, hp⟩)]
          rw [parseNeg_not_dash _ (by
            intro d hd
            rw [List.head?_cons] at hd
            cases hd
            exact hc)]
  rw [float64Of]
  rw [show (String.mk s).data = s from rfl]
  rw [hsign]
  rw [parseNumber] at h
  rcases hsgn : parseNeg s with ⟨neg, s1⟩
  rw [hsgn] at h
  dsimp only at h ⊢
  rcases hidp : takeDigits s1 with ⟨ids, rest1⟩
  rw [hidp] at h
  dsimp only at h ⊢
  by_cases hids : ids = []
  · rw [if_pos hids] at h
    exact absurd h (by simp)
  · rw [if_neg hids] at h ⊢
    by_cases hlead : leadOK ids = true
    · rw [if_neg (by simp [hlead])] at h
      cases rest1 with
      | nil =>
        dsimp only at h ⊢
        simp at h
        rw [h.2]
      | cons c rest2 =>
        by_cases hc : c = '.'
        · subst hc
          rw [show (match ('.' :: rest2 : List Char) with
            | '.' :: s3 =>
              if (takeDigits s3).1 = [] then none
              else some ((numLit neg ids (takeDigits s3).1,
                numRat neg ids (takeDigits s3).1), (takeDigits s3).2)
            | _ => some ((numLit neg ids [], numRat neg ids []),
                '.' :: rest2)) =
            (if (takeDigits rest2).1 = [] then none
              else some ((numLit neg ids (takeDigits rest2).1,
                numRat neg ids (takeDigits rest2).1),
                (takeDigits rest2).2)) from rfl] at h
          rw [show (match ('.' :: rest2 : List Char) with
            | [] => some (numRat neg ids [])
            | '.' :: s3 =>
              if (takeDigits s3).1 = [] ∨ (takeDigits s3).2 ≠ [] then none
              else some (numRat neg ids (takeDigits s3).1)
            | _ => none) =
            (if (takeDigits rest2).1 = [] ∨ (takeDigits rest2).2 ≠ [] then
              none
            else some (numRat neg ids (takeDigits rest2).1)) from rfl]
          rcases hfdp : takeDigits rest2 with ⟨fds, rest3⟩
          rw [hfdp] at h
          dsimp only at h
          by_cases hfds : fds = []
          · rw [if_pos hfds] at h
            exact absurd h (by simp)
          · rw [if_neg hfds] at h
            simp at h
            rw [if_neg (by
              push_neg
              exact ⟨hfds, h.2⟩)]
            rw [h.1.2]
        · exfalso
          rw [show (match (c :: rest2 : List Char) with
            | '.' :: s3 =>
              let fdp := takeDigits s3
              if fdp.1 = [] then none
              else some ((numLit neg ids fdp.1, numRat neg ids fdp.1), fdp.2)
            | _ => some ((numLit neg ids [], numRat neg ids []), c :: rest2)) =
            some ((numLit neg ids [], numRat neg ids []), c :: rest2) from by
            split
            · rename_i heq
              rw [List.cons.injEq] at heq
              exact absurd heq.1 hc
            · rfl] at h
          simp at h
    · rw [if_pos (by simp [hlead])] at h
      exact absurd h (by simp)

theorem float64Of_ratChars (q : ℚ) (hq : DecimalRat q) :
    float64Of (String.mk (ratChars q)) = some q := by
  apply float64Of_of_parseNumber (ratChars q) (ratChars q) q
  have h := parseNumber_ratChars q [] hq (by intro c hc; simp at hc) (by simp)
  rwa [List.append_nil] at h

theorem numCoerce_ratChars (q : ℚ) (hq : DecimalRat q) :
    numCoerce (GoValue.vnum (String.mk (ratChars q))) = GoValue.vfloat q := by
  show (match float64Of (String.mk (ratChars q)) with
    | some q' => GoValue.vfloat q'
    | none => GoValue.vnum (String.mk (ratChars q))) = _
  rw [float64Of_ratChars q hq]

theorem fromJSON_preserve_single (k : String) (v : GoValue) (q : ℚ)
    (hk : cleanString k) (hv : scalarClean v)
    (hjv : jvalOf v = JVal.jnum (String.mk (ratChars q)) q)
    (hq : DecimalRat q) :
    (NewOrderedMap.FromJSON (String.mk (printObject [(k, v)]))
      (some ⟨true, true, false⟩)).1.Get (GoValue.vstr k) =
      (GoValue.vfloat q, true) := by
  have hpo : parseObject (printObject [(k, v)]) =
      some ([(k, jvalOf v)], []) := by
    have h := parseObject_print [(k, v)] []
      (by
        intro p hp
        rw [List.mem_singleton] at hp
        subst hp
        exact ⟨hk, hv⟩)
    rwa [List.append_nil] at h
  have hdec : decoderDecode true (String.mk (printObject [(k, v)])) =
      Except.ok [(k, GoValue.vnum (String.mk (ratChars q)))] := by
    rw [decoderDecode]
    rw [show (String.mk (printObject [(k, v)])).data =
      printObject [(k, v)] from rfl]
    rw [hpo]
    show Except.ok (jmembersToMap true [(k, jvalOf v)]) = _
    rw [hjv]
    rfl
  have hfj : NewOrderedMap.FromJSON (String.mk (printObject [(k, v)]))
      (some ⟨true, true, false⟩) =
      fromLoop ⟨true, true, false⟩ (OrderedMap.mk [] [] 0)
        [(k, GoValue.vnum (String.mk (ratChars q)))] := by
    show (match decoderDecode true (String.mk (printObject [(k, v)])) with
      | Except.error e => (NewOrderedMap, some e)
      | Except.ok tmp =>
        fromLoop ⟨true, true, false⟩ (OrderedMap.mk [] [] 0) tmp) = _
    rw [hdec]
  rw [hfj]
  show (match (OrderedMap.mk [] [] 0).set (GoValue.vstr k)
      (numCoerce (GoValue.vnum (String.mk (ratChars q)))) with
    | (om', none) => fromLoop ⟨true, true, false⟩ om' []
    | (om', some e) => (om', some e)).1.Get (GoValue.vstr k) = _
  rw [numCoerce_ratChars q hq]
  show (OrderedMap.mk [(GoValue.vstr k, GoValue.vfloat q)]
    [GoValue.vstr k] 1).Get (GoValue.vstr k) = _
  rw [OrderedMap.Get]
  rw [if_neg (by simp)]
  rw [show chainFind [(GoValue.vstr k, GoValue.vfloat q)] (GoValue.vstr k) =
    some (GoValue.vfloat q) from by
    rw [chainFind]
    rw [if_pos rfl]]

theorem decimalRat_of_eq_int (q : ℚ) (n : Int)
    (h : q * (10 : ℚ) ^ ratDecExp q = (n : ℚ)) : DecimalRat q := by
  rw [DecimalRat, tenPow_eq, h]
  exact Rat.den_intCast n

/-- C6 is refuted as stated: with the type-preservation option enabled on
both sides, round-tripping the single entry `"a" ↦ int 1` still returns the
float64 value `1.0` from `Get`, not the integer — the option does not
prevent the integer-to-float coercion. -/
theorem claim_c6_counterexample :
    ((NewOrderedMap.Set (GoValue.vstr "a") (GoValue.vint 1)).1.ToJSON
      (some ⟨false, true, false⟩)) = Except.ok "\x7b\"a\":1\x7d" ∧
    (NewOrderedMap.FromJSON "\x7b\"a\":1\x7d"
      (some ⟨false, true, false⟩)).1.Get (GoValue.vstr "a") =
      (GoValue.vfloat (mkRat 1 1), true) ∧
    GoValue.vfloat (mkRat 1 1) ≠ GoValue.vint 1 := by
  refine ⟨by rfl, by decide, by decide⟩

theorem claim_c6_witness :
    ∃ data : String,
      (buildFromStr c6list).ToJSON none = Except.ok data ∧
      (NewOrderedMap.FromJSON data none).2 = none ∧
      ∀ p ∈ c6list,
        (NewOrderedMap.FromJSON data none).1.Get (GoValue.vstr p.1) =
          (floatized p.2, true) :=
  claim_c6_theorem c6list (by decide)
    (by
      intro p hp
      simp only [c6list, List.mem_cons] at hp
      rcases hp with rfl | rfl | rfl | rfl | hp
      · exact ⟨by decide, by decide⟩
      · exact ⟨by decide, by decide⟩
      · exact ⟨by decide, decimalRat_of_eq_int (mkRat 3 2) 15 (by
          rw [show ratDecExp (mkRat 3 2) = 1 from by decide,
            Rat.mkRat_eq_div]
          norm_num)⟩
      · exact ⟨by decide, by decide⟩
      · rcases hp with rfl | hp
        · exact ⟨by decide, by decide⟩
        · simp at hp)

/-- C7 is refuted as stated: `FromJSON` with `PreserveType` enabled (the
options of the repository's own test) decodes the member `"a": 1` through
the arbitrary-precision `json.Number` intermediate but then coerces it to
float64, so `Get` returns the float `1.0` — neither the integer `1` nor
the `json.Number` literal survives. -/
theorem claim_c7_counterexample :
    (NewOrderedMap.FromJSON "\x7b\"a\":1\x7d"
      (some ⟨false, true, false⟩)).1.Get (GoValue.vstr "a") =
      (GoValue.vfloat (mkRat 1 1), true) ∧
    GoValue.vfloat (mkRat 1 1) ≠ GoValue.vint 1 ∧
    GoValue.vfloat (mkRat 1 1) ≠ GoValue.vnum "1" := by
  refine ⟨by decide, by decide, by decide⟩

/-- C7 (amended): with the preserve-numeric-type option, numeric leaves are
decoded through the arbitrary-precision `json.Number` intermediate but each
is then converted to float64 whenever that conversion succeeds, so both
integer and fractional literals come back as float64 values — the integer
versus floating-point distinction is not kept. -/
theorem claim_c7_theorem (k : String) (n : Int) (q : ℚ)
    (hk : cleanString k) (hn : n.natAbs ≤ 2 ^ 53) (hq : DecimalRat q) :
    (NewOrderedMap.FromJSON (String.mk (printObject [(k, GoValue.vint n)]))
      (some ⟨true, true, false⟩)).1.Get (GoValue.vstr k) =
      (GoValue.vfloat ((n : ℚ)), true) ∧
    (NewOrderedMap.FromJSON (String.mk (printObject [(k, GoValue.vfloat q)]))
      (some ⟨true, true, false⟩)).1.Get (GoValue.vstr k) =
      (GoValue.vfloat q, true) := by
  constructor
  · apply fromJSON_preserve_single k (GoValue.vint n) ((n : ℚ)) hk hn
    · show jvalOf (GoValue.vint n) = _
      rw [ratChars_intCast]
      rfl
    · exact den_one_decimal _ (Rat.den_intCast n)
  · exact fromJSON_preserve_single k (GoValue.vfloat q) q hk hq rfl hq

theorem claim_c7_witness :
    (NewOrderedMap.FromJSON
      (String.mk (printObject [("a", GoValue.vint 2)]))
      (some ⟨true, true, false⟩)).1.Get (GoValue.vstr "a") =
      (GoValue.vfloat (((2 : Int) : ℚ)), true) ∧
    (NewOrderedMap.FromJSON
      (String.mk (printObject [("a", GoValue.vfloat (mkRat 3 2))]))
      (some ⟨true, true, false⟩)).1.Get (GoValue.vstr "a") =
      (GoValue.vfloat (mkRat 3 2), true) :=
  claim_c7_theorem "a" 2 (mkRat 3 2) (by decide) (by decide)
    (decimalRat_of_eq_int (mkRat 3 2) 15 (by
      rw [show ratDecExp (mkRat 3 2) = 1 from by decide, Rat.mkRat_eq_div]
      norm_num))
